import Mathlib

/-!
Verification development for the core of `numjuggler`, a format-preserving
renumbering tool for MCNP input decks.  The Python 2 sources
(`numjuggler/parser.py`, `numjuggler/numbering.py`, `numjuggler/names.py`)
are shallowly embedded below: Python byte strings become `List Char`,
functions that can raise become `Option`-valued, and methods that mutate an
object in place become functions from the old object (and, for the change
pass, from the old rule table) to the new one.  Debug printing, the logging
flag of `LikeFunction` and the `pos` line counter (all of which have no
effect on produced text) are not modelled.
-/

set_option maxRecDepth 100000

abbrev Str := List Char

def strL (s : String) : Str := s.toList

/-! ### ASCII character classes (Python 2 `str` methods classify raw bytes) -/

def isSpaceCh (c : Char) : Bool :=
  c == ' ' || c == '\t' || c == '\n' || c == '\x0b' || c == '\x0c' || c == '\r'

def isDigitCh (c : Char) : Bool :=
  48 ≤ c.toNat && c.toNat ≤ 57

def isAlphaCh (c : Char) : Bool :=
  (97 ≤ c.toNat && c.toNat ≤ 122) || (65 ≤ c.toNat && c.toNat ≤ 90)

def toLowerCh (c : Char) : Char :=
  if 65 ≤ c.toNat ∧ c.toNat ≤ 90 then Char.ofNat (c.toNat + 32) else c

def toLowerS (s : Str) : Str := s.map toLowerCh

/-! ### Python string primitives on `List Char` -/

/-- Helper for `replFirst`: replace the first occurrence of the nonempty
pattern `old` by `new`, scanning left to right. -/
def replFirstGo (old new : Str) : Str → Str
  | [] => []
  | c :: rest =>
    if old.isPrefixOf (c :: rest) then new ++ (c :: rest).drop old.length
    else c :: replFirstGo old new rest

/-- Python `s.replace(old, new, 1)`: replace the first occurrence only.
For an empty pattern Python inserts `new` in front of the string. -/
def replFirst (s old new : Str) : Str :=
  if old = [] then new ++ s else replFirstGo old new s

/-- Python `s.replace(a, b)` for single characters (all occurrences). -/
def replAll (s : Str) (a b : Char) : Str :=
  s.map (fun c => if c = a then b else c)

def containsSubGo (sub : Str) : Str → Bool
  | [] => false
  | c :: rest => sub.isPrefixOf (c :: rest) || containsSubGo sub rest

/-- Python `sub in s` for strings (empty `sub` is contained in everything). -/
def containsSub (s sub : Str) : Bool :=
  sub.isEmpty || containsSubGo sub s

def findSubGo (sub : Str) : Str → Option Nat
  | [] => none
  | c :: rest =>
    if sub.isPrefixOf (c :: rest) then some 0 else (findSubGo sub rest).map (· + 1)

/-- Python `s.find(sub)`: index of the first occurrence, `-1` if absent. -/
def pyFind (s sub : Str) : Int :=
  if sub = [] then 0 else
  match findSubGo sub s with
  | some n => (n : Int)
  | none => -1

/-- Python `s.rfind(c)` for a single character. -/
def pyRfindCh (s : Str) (c : Char) : Int :=
  match findSubGo [c] s.reverse with
  | some n => (s.length : Int) - 1 - n
  | none => -1

/-- Normalize one Python slice index against a length. -/
def pySliceIdx (len : Nat) (i : Int) : Nat :=
  if i < 0 then (max 0 ((len : Int) + i)).toNat else min i.toNat len

/-- Python `s[a:b]` with possibly negative indices. -/
def pySlice (s : Str) (a b : Int) : Str :=
  let a' := pySliceIdx s.length a
  let b' := pySliceIdx s.length b
  (s.drop a').take (b' - a')

def splitWSGo : Nat → Str → List Str
  | 0, _ => []
  | fuel + 1, s =>
    let s1 := s.dropWhile isSpaceCh
    let tok := s1.takeWhile (fun c => !isSpaceCh c)
    if tok = [] then [] else tok :: splitWSGo fuel (s1.drop tok.length)

/-- Python `s.split()`: split on whitespace runs, dropping empty tokens. -/
def splitWS (s : Str) : List Str := splitWSGo (s.length + 1) s

def splitSubGo (sep : Str) : Nat → Str → List Str
  | 0, s => [s]
  | fuel + 1, s =>
    match findSubGo sep s with
    | none => [s]
    | some i => s.take i :: splitSubGo sep fuel (s.drop (i + sep.length))

/-- Python `s.split(sep)` for a nonempty separator. -/
def pySplitSub (s sep : Str) : List Str := splitSubGo sep (s.length + 1) s

def trimWS (s : Str) : Str :=
  ((s.dropWhile isSpaceCh).reverse.dropWhile isSpaceCh).reverse

/-- Value of a nonempty digit string. -/
def natVal (ds : Str) : Nat := ds.foldl (fun a c => 10 * a + (c.toNat - 48)) 0

/-- Python `int(s)` for base 10: optional surrounding whitespace, optional
single sign, then at least one digit; anything else raises `ValueError`. -/
def pyInt (s : Str) : Option Int :=
  match trimWS s with
  | [] => none
  | c :: rest =>
    let p : Int × Str :=
      if c = '+' then (1, rest) else if c = '-' then (-1, rest) else (1, c :: rest)
    if p.2 ≠ [] ∧ p.2.all isDigitCh then some (p.1 * (natVal p.2 : Int)) else none

def digChar (d : Nat) : Char := Char.ofNat (48 + d)

def natReprGo : Nat → Nat → Str
  | 0, _ => []
  | fuel + 1, n => if n < 10 then [digChar n] else natReprGo fuel (n / 10) ++ [digChar (n % 10)]

/-- Decimal representation of a natural number. -/
def natRepr (n : Nat) : Str := natReprGo (n + 1) n

/-- Decimal representation of an integer (Python `str(n)` for ints). -/
def intRepr (n : Int) : Str :=
  if n < 0 then '-' :: natRepr n.natAbs else natRepr n.natAbs

def joinCh (c : Char) : List Str → Str
  | [] => []
  | [x] => x
  | x :: y :: xs => x ++ c :: joinCh c (y :: xs)

/-- Python `'\n'.join(l)`. -/
def joinNL (l : List Str) : Str := joinCh '\n' l

/-- Python `' '.join(l)`. -/
def joinSp (l : List Str) : Str := joinCh ' ' l

/-- Python `s.split('\n')` (keeps empty parts, always at least one part). -/
def splitNL : Str → List Str
  | [] => [[]]
  | c :: r =>
    if c = '\n' then [] :: splitNL r
    else
      match splitNL r with
      | [] => [[c]]
      | p :: ps => (c :: p) :: ps

/-! ### Scanners derived from the regular expressions in `parser.py` -/

/-- Start index of the first match of `re_end = \s[$&]|\n` in a line, `none`
if the pattern does not occur (then `re_end.search(l).start()` raises
`AttributeError` in the source). -/
def findEnd : Str → Option Nat
  | [] => none
  | c :: rest =>
    let hit := (isSpaceCh c && (match rest with
                 | d :: _ => d == '$' || d == '&'
                 | [] => false)) || c == '\n'
    if hit then some 0 else (findEnd rest).map (· + 1)

/-- Python `is_commented`: `re_cmt = ^\s{0,5}[cC](\s+.*|\s*)$` has a match in
the single physical line `l`.  This holds exactly when at most five leading
whitespace characters are followed by `c` or `C` which is itself followed by
end of line or a whitespace character. -/
def is_commented (l : Str) : Bool :=
  let ws := l.takeWhile isSpaceCh
  let rest := l.dropWhile isSpaceCh
  ws.length ≤ 5 &&
    match rest with
    | c :: r =>
      (c == 'c' || c == 'C') &&
        (match r with
         | [] => true
         | d :: _ => isSpaceCh d)
    | [] => false

/-- Python `re_fc_card.search(s)`: `^\s*[fF][cC]\d` matches at the start. -/
def fcSearch (s : Str) : Bool :=
  match s.dropWhile isSpaceCh with
  | f :: c :: d :: _ => (f == 'f' || f == 'F') && (c == 'c' || c == 'C') && isDigitCh d
  | _ => false

/-- Python `re_f_card.search(s)`: `^\s*[fF]\d` matches at the start. -/
def fSearch (s : Str) : Bool :=
  match s.dropWhile isSpaceCh with
  | f :: d :: _ => (f == 'f' || f == 'F') && isDigitCh d
  | _ => false

/-- Python `is_blankline`: the line is whitespace only. -/
def is_blankline (l : Str) : Bool := trimWS l = []

/-- Python `is_fc_card`: the stripped, lowered line starts with `fc`. -/
def is_fc_card (l : Str) : Bool :=
  (toLowerS (l.dropWhile isSpaceCh)).take 2 = strL "fc"

/-- Python `re_rpt.findall(s)`: non-overlapping matches of `\d+[rRiI]`,
left to right, each a maximal digit run followed by one of `rRiI`. -/
def rptFindallGo : Nat → Str → List Str
  | 0, _ => []
  | _ + 1, [] => []
  | fuel + 1, c :: rest =>
    if isDigitCh c then
      let ds := (c :: rest).takeWhile isDigitCh
      match (c :: rest).dropWhile isDigitCh with
      | [] => []
      | r :: rest' =>
        if r == 'r' || r == 'R' || r == 'i' || r == 'I' then
          (ds ++ [r]) :: rptFindallGo fuel rest'
        else rptFindallGo fuel (r :: rest')
    else rptFindallGo fuel rest

def rptFindall (s : Str) : List Str := rptFindallGo (s.length + 1) s

/-- Index of the last occurrence of `c` in `s`. -/
def lastIdxCh (s : Str) (c : Char) : Option Nat :=
  (findSubGo [c] s.reverse).map (fun n => s.length - 1 - n)

/-- Python `re_ind.findall(s)`: matches of the greedy `\[.+\]` where `.`
excludes newlines; at each candidate `[` the match extends to the last `]`
on the same line provided at least one character lies between them. -/
def indFindallGo : Nat → Str → List Str
  | 0, _ => []
  | _ + 1, [] => []
  | fuel + 1, c :: rest =>
    if c = '[' then
      let seg := rest.takeWhile (fun ch => ch != '\n')
      match lastIdxCh seg ']' with
      | some j =>
        if 1 ≤ j then (c :: (seg.take j ++ [']'])) :: indFindallGo fuel (rest.drop (j + 1))
        else indFindallGo fuel rest
      | none => indFindallGo fuel rest
    else indFindallGo fuel rest

def indFindall (s : Str) : List Str := indFindallGo (s.length + 1) s

/-- Python `re_int.findall(s)`: matches of `\D{0,1}\d+`, i.e. a maximal digit
run with at most one preceding non-digit character, non-overlapping from the
left. -/
def reIntFindallGo : Nat → Str → List Str
  | 0, _ => []
  | _ + 1, [] => []
  | fuel + 1, c :: rest =>
    if isDigitCh c then
      ((c :: rest).takeWhile isDigitCh) :: reIntFindallGo fuel ((c :: rest).dropWhile isDigitCh)
    else
      match rest with
      | [] => []
      | d :: _ =>
        if isDigitCh d then
          (c :: rest.takeWhile isDigitCh) :: reIntFindallGo fuel (rest.dropWhile isDigitCh)
        else reIntFindallGo fuel rest

def reIntFindall (s : Str) : List Str := reIntFindallGo (s.length + 1) s

/-- Python `_get_int`: collect digits of `s`, stopping at the first
alphabetic character that follows at least one collected digit. -/
def _get_intGo : Str → Str → Str
  | [], r => r.reverse
  | c :: rest, r =>
    if r ≠ [] ∧ isAlphaCh c then r.reverse
    else if isDigitCh c then _get_intGo rest (c :: r)
    else _get_intGo rest r

def _get_int (s : Str) : Str := _get_intGo s []

/-! ### The name registries of `names.py`

`_TypeName.__call__` iterates the backing dictionary and, for a string
argument, returns the id of the first key that the argument is a prefix of.
Python 2 dictionaries iterate in hash order; the orders below are those of
CPython 2.7 on a 64-bit build (deterministic: the 2.7 string hash with open
addressing).  The order matters only for ambiguous prefixes; in particular
the map-file prefix `m` resolves to `mat` (id 3) because `mat` precedes
`mt` in iteration order. -/

def cMessage : Int := 1
def cTitle : Int := 2
def cCell : Int := 3
def cSurface : Int := 4
def cData : Int := 5
def cComment : Int := -1
def cBlankline : Int := -2

/-- Card construction looks the card type up via `cID(ctype)`; an unknown id
raises `ValueError`. -/
def validCtype (t : Int) : Bool :=
  t == cComment || t == cBlankline || t == cMessage || t == cTitle ||
    t == cCell || t == cSurface || t == cData

def eCell : Int := 1
def eSur : Int := 2
def eMat : Int := 3
def eTr : Int := 4
def eTal : Int := 5
def eU : Int := 6
def eFill : Int := 7
def eDen : Int := -1
def eImpN : Int := -2
def eImpP : Int := -3
def eTmp : Int := -4
def eNlib : Int := -5
def eMt : Int := -6

/-- The items of `names._eTypes` (after `'_'` is popped) in CPython 2.7
dictionary iteration order. -/
def eItems : List (Str × Int) :=
  [(strL "tmp", eTmp), (strL "mat", eMat), (strL "mt", eMt), (strL "tr", eTr),
   (strL "imp:n", eImpN), (strL "cell", eCell), (strL "imp:p", eImpP),
   (strL "u", eU), (strL "sur", eSur), (strL "den", eDen),
   (strL "nlib", eNlib), (strL "tal", eTal), (strL "fill", eFill)]

/-- Python `eID(s)` without default: id of the first registered name that
`s` is a prefix of; `none` models the raised `ValueError`. -/
def eLookup? (s : Str) : Option Int :=
  (eItems.find? (fun kv => s.isPrefixOf kv.1)).map (·.2)

/-- Python `eID(s, d)` with a default. -/
def eLookupD (s : Str) (d : Int) : Int := (eLookup? s).getD d

/-- Python `eID.values`: ids of positive entries sorted by name
(`cell, fill, mat, sur, tal, tr, u`). -/
def eValues : List Int := [1, 7, 3, 2, 5, 4, 6]

def dM : Int := 1
def dMt : Int := 2
def dMpn : Int := 3
def dF : Int := 4
def dTr : Int := 5

/-! ### Python `str.format`, restricted to the format specs the code emits

The templates built by the parser contain only the specs `` `{}` `` and
`` `{:<Nd}` `` (produced by `fmt_s` and `fmt_d`).  The model substitutes
those and treats every other field spec as an error, as Python does for the
specs that can actually arise here (named fields raise `KeyError`, `d` on a
string raises `ValueError`); `{{`/`}}` escapes are literal braces and a
single unmatched brace is an error. -/

def lbCh : Char := Char.ofNat 123
def rbCh : Char := Char.ofNat 125

inductive PyVal where
  | i (n : Int)
  | s (v : Str)
deriving DecidableEq

def valStr : PyVal → Str
  | .i n => intRepr n
  | .s v => v

/-- Left-justify in a field of width `w`, padding with spaces. -/
def padTo (w : Nat) (s : Str) : Str := s ++ List.replicate (w - s.length) ' '

def widthSpec (r : Str) : Option Nat :=
  match r.reverse with
  | 'd' :: ds' =>
    let ds := ds'.reverse
    if ds ≠ [] ∧ ds.all isDigitCh then some (natVal ds) else none
  | _ => none

def renderSpec (spec : Str) (v : PyVal) : Option Str :=
  match spec with
  | [] => some (valStr v)
  | c1 :: c2 :: rest =>
    if c1 = ':' ∧ c2 = '<' then
      match widthSpec rest, v with
      | some w, .i n => some (padTo w (intRepr n))
      | _, _ => none
    else none
  | _ => none

inductive FmtMode where
  | norm
  | afterLb
  | afterRb
  | spec (acc : Str)

/-- One-character-at-a-time scanner for `str.format`; returns the rendered
text and the remaining (unconsumed) arguments, or `none` on a format error
or on exhausted arguments. -/
def fmtScan : FmtMode → Str → List PyVal → Option (Str × List PyVal)
  | .norm, [], vs => some ([], vs)
  | .afterLb, [], _ => none
  | .afterRb, [], _ => none
  | .spec _, [], _ => none
  | .norm, c :: rest, vs =>
    if c = lbCh then fmtScan .afterLb rest vs
    else if c = rbCh then fmtScan .afterRb rest vs
    else (fmtScan .norm rest vs).map (fun p => (c :: p.1, p.2))
  | .afterLb, c :: rest, vs =>
    if c = lbCh then (fmtScan .norm rest vs).map (fun p => (lbCh :: p.1, p.2))
    else if c = rbCh then
      match vs with
      | [] => none
      | v :: vs' => (fmtScan .norm rest vs').map (fun p => (valStr v ++ p.1, p.2))
    else fmtScan (.spec [c]) rest vs
  | .afterRb, c :: rest, vs =>
    if c = rbCh then (fmtScan .norm rest vs).map (fun p => (rbCh :: p.1, p.2))
    else none
  | .spec acc, c :: rest, vs =>
    if c = rbCh then
      match vs with
      | [] => none
      | v :: vs' =>
        match renderSpec acc.reverse v with
        | none => none
        | some r => (fmtScan .norm rest vs').map (fun p => (r ++ p.1, p.2))
    else if c = lbCh then none
    else fmtScan (.spec (c :: acc)) rest vs

/-- Python `t.format(*vs)` (extra arguments are allowed and ignored). -/
def pyFormat (t : Str) (vs : List PyVal) : Option Str :=
  (fmtScan .norm t vs).map (·.1)

/-- The format placeholder produced by `fmt_s`. -/
def fmt_s : Str := [lbCh, rbCh]

/-- The format placeholder produced by `fmt_d`: width is the length of the
original token. -/
def fmt_d (s : Str) : Str := lbCh :: ':' :: '<' :: (natRepr s.length ++ ['d', rbCh])

/-! ### The `Card` type and `Card.get_input` -/

structure Card where
  lines : List Str
  ctype : Int
  template : Str
  input : List Str
  hidden : List (Char × List Str)
  values : List (PyVal × Int)
  original_name : Option Int
  dtype : Option Int
  etype : Option Int
deriving DecidableEq

/-- Per-line part of `get_input`: a commented line goes to the template
verbatim, any other line is split at the first `re_end` match. -/
def splitLines : List Str → Option (Str × List Str)
  | [] => some ([], [])
  | l :: rest =>
    if is_commented l then (splitLines rest).map (fun p => (l ++ p.1, p.2))
    else
      match findEnd l with
      | none => none
      | some d => (splitLines rest).map (fun p => ((fmt_s ++ l.drop d) ++ p.1, l.take d :: p.2))

/-- Python `Card.get_input`: compute template and input from the lines.
Comment and blank-line cards keep their text verbatim; a card whose joined
text matches `re_fc_card` keeps its first 80 bytes as a single segment;
every other card is split line by line. -/
def get_input (lines : List Str) (ctype : Int) : Option (Str × List Str) :=
  let mline := lines.flatten
  if ctype = cComment ∨ ctype = cBlankline then some (mline, [])
  else if fcSearch mline then
    let i := mline.take 80
    some (replFirst mline i fmt_s, [i])
  else splitLines lines

/-- Python `Card.__init__`: look the card type name up (raising on an
unknown id) and split the lines into template and input. -/
def mkCard (lines : List Str) (ctype : Int) : Option Card :=
  if validCtype ctype then
    (get_input lines ctype).map (fun p =>
      { lines := lines, ctype := ctype, template := p.1, input := p.2,
        hidden := [], values := [], original_name := none,
        dtype := none, etype := none })
  else none

/-! ### `Card._protect_nums` and the three splitters -/

/-- The temporary placeholder `tp = '_'` used by the splitters. -/
def tpC : Char := '_'

/-- Test the first character of a token (empty tokens fail the test). -/
def headIs (s : Str) (p : Char → Bool) : Bool :=
  match s with
  | c :: _ => p c
  | [] => false

/-- Python `Card._protect_nums`: mask repetition shorthand with `!`, lattice
index brackets on tally data cards with `|`, and register the (unused) `~`
entry for cell cards without `like`.  The hidden entries are listed in
dictionary insertion order. -/
def _protect_nums (c : Card) : Card :=
  let inpt := joinNL c.input
  let h0 : List (Char × List Str) :=
    if c.ctype = cCell ∧ ¬ containsSub inpt (strL "like") then [('~', [])] else []
  let sbl := rptFindall inpt
  let inpt1 := sbl.foldl (fun t s => replFirst t s ['!']) inpt
  let h1 : List (Char × List Str) := if sbl ≠ [] then [('!', sbl)] else []
  let step2 : Str × List (Char × List Str) :=
    if c.ctype = cData ∧ fSearch inpt1 then
      let sbi := indFindall inpt1
      (sbi.foldl (fun t s => replFirst t s ['|']) inpt1,
       if sbi ≠ [] then [('|', sbi)] else [])
    else (inpt1, [])
  { c with input := splitNL step2.1, hidden := h0 ++ h1 ++ step2.2 }

/-- Geometry/parameter split of the remaining cell tokens: the parameter
block starts at the first token whose first character is alphabetic. -/
def geomSplit : List Str → (List Str × List Str)
  | [] => ([], [])
  | e :: t =>
    if headIs e isAlphaCh then ([], e :: t)
    else
      let p := geomSplit t
      (e :: p.1, p.2)

/-- Process the `re_int` matches of the cell geometry block: `#N` is a cell
reference, a bare `N` a surface reference. -/
def cellGeomVals : List Str → Str → List (PyVal × Int) → List Str →
    Option (Str × List (PyVal × Int) × List Str)
  | [], inpt, vals, fmts => some (inpt, vals, fmts)
  | s :: ms, inpt, vals, fmts =>
    let t := if headIs s (fun c => c == '#') then eCell else eSur
    let s' := if headIs s isDigitCh then s else s.drop 1
    match pyInt s' with
    | none => none
    | some n =>
      cellGeomVals ms (replFirst inpt s' [tpC]) (vals ++ [(.i n, t)]) (fmts ++ [fmt_d s'])

/-- Process the cell parameter tokens in (name, value) pairs: a token whose
lowering contains `fill` takes kind `Fill`, the exact token `u` takes kind
`Universe`, both with integer values; other names are looked up in the
registry (an unknown name raises) and keep their value strings.  The
`fill`+`lat` diagnostic is a print without behavioural effect. -/
def cellParamVals : Nat → List Str → Str → List (PyVal × Int) → List Str →
    Option (Str × List (PyVal × Int) × List Str)
  | 0, _, _, _, _ => none
  | _ + 1, [], inpt, vals, fmts => some (inpt, vals, fmts)
  | fuel + 1, s :: t, inpt, vals, fmts =>
    if containsSub (toLowerS s) (strL "fill") then
      match t with
      | [] => none
      | vs :: t' =>
        match pyInt vs with
        | none => none
        | some n =>
          cellParamVals fuel t' (replFirst inpt vs [tpC])
            (vals ++ [(.i n, eFill)]) (fmts ++ [fmt_d vs])
    else
      match t with
      | [] => none
      | vs :: t' =>
        if s = strL "u" then
          match pyInt vs, eLookup? s with
          | some n, some k =>
            cellParamVals fuel t' (replFirst inpt vs [tpC])
              (vals ++ [(.i n, k)]) (fmts ++ [fmt_d vs])
          | _, _ => none
        else
          match eLookup? s with
          | none => none
          | some k =>
            cellParamVals fuel t' (replFirst inpt vs [tpC])
              (vals ++ [(.s vs, k)]) (fmts ++ [fmt_s])

/-- Python `_split_cell`.  A card containing `like ` raises (the warning
call references an undefined `self`), which the `none` models. -/
def _split_cell (input_ : List Str) : Option (List Str × List (PyVal × Int)) :=
  let inpt := joinNL input_
  if containsSub (toLowerS inpt) (strL "like ") then none
  else
    match splitWS inpt with
    | [] => none
    | js :: t1 =>
      match pyInt js with
      | none => none
      | some jn =>
        let inpt1 := replFirst inpt js [tpC]
        match t1 with
        | [] => none
        | ms :: t2 =>
          match pyInt ms with
          | none => none
          | some mn =>
            let inpt2 := replFirst inpt1 ms [tpC]
            let vals1 := [(PyVal.i jn, eCell), (PyVal.i mn, eMat)]
            let fmts1 := [fmt_d js, fmt_d ms]
            let den : Option (Str × List (PyVal × Int) × List Str × List Str) :=
              if mn ≠ 0 then
                match t2 with
                | [] => none
                | ds :: t3 =>
                  some (replFirst inpt2 ds [tpC], vals1 ++ [(.s ds, eDen)],
                        fmts1 ++ [fmt_s], t3)
              else some (inpt2, vals1, fmts1, t2)
            match den with
            | none => none
            | some (inpt3, vals2, fmts2, t3) =>
              let gp := geomSplit t3
              match cellGeomVals (reIntFindall (joinSp gp.1)) inpt3 vals2 fmts2 with
              | none => none
              | some (inpt4, vals3, fmts3) =>
                let ptoks := splitWS (replAll (joinSp gp.2) '=' ' ')
                match cellParamVals (ptoks.length + 1) ptoks inpt4 vals3 fmts3 with
                | none => none
                | some (inpt5, vals4, fmts4) =>
                  let inpt6 := fmts4.foldl (fun acc f => replFirst acc [tpC] f) inpt5
                  some (splitNL inpt6, vals4)

/-- Python `_split_surface`. -/
def _split_surface (input_ : List Str) : Option (List Str × List (PyVal × Int)) :=
  let inpt := joinNL input_
  match splitWS inpt with
  | [] => none
  | js0 :: t1 =>
    let js := if headIs js0 isDigitCh then js0 else js0.drop 1
    match pyInt js with
    | none => none
    | some jn =>
      let inpt1 := replFirst inpt js [tpC]
      let vals0 := [(PyVal.i jn, eSur)]
      let fmts0 := [fmt_d js]
      match t1 with
      | [] => none
      | ns :: _ =>
        let step : Option (Str × List (PyVal × Int) × List Str) :=
          match ns with
          | [] => none
          | nc :: nrest =>
            if isDigitCh nc then
              match pyInt ns with
              | none => none
              | some nn =>
                some (replFirst inpt1 ns [tpC], vals0 ++ [(.i nn, eTr)], fmts0 ++ [fmt_d ns])
            else if nc = '-' then
              match pyInt nrest with
              | none => none
              | some nn =>
                some (replFirst inpt1 nrest [tpC], vals0 ++ [(.i nn, eSur)],
                      fmts0 ++ [fmt_d nrest])
            else if isAlphaCh nc then some (inpt1, vals0, fmts0)
            else none
        match step with
        | none => none
        | some (inpt2, vals, fmts) =>
          some (splitNL (fmts.foldl (fun acc f => replFirst acc [tpC] f) inpt2), vals)

/-- The `u=` reclassification test of `_split_data`: the text between the
last placeholder and the first occurrence of the integer, with spaces
removed, must end in `u=`. -/
def dataUReclass (inpt : Str) (ss : Str) : Bool :=
  let part := pySlice inpt (pyRfindCh inpt tpC) (pyFind inpt ss)
  let part := part.filter (fun c => c != ' ')
  toLowerS (part.drop (part.length - 2)) = strL "u="

/-- Body integers of a tally data card; each match of `re_int` loses its
first character (`s[1:]` in the source) before conversion. -/
def dataFVals : List Str → Bool → Int → Str → List (PyVal × Int) → List Str →
    Option (Str × List (PyVal × Int) × List Str)
  | [], _, _, inpt, vals, fmts => some (inpt, vals, fmts)
  | s :: ms, hasu, typ, inpt, vals, fmts =>
    let ss := s.drop 1
    let tpe := if hasu ∧ dataUReclass inpt ss then eU else typ
    match pyInt ss with
    | none => none
    | some n =>
      dataFVals ms hasu typ (replFirst inpt ss [tpC]) (vals ++ [(.i n, tpe)]) (fmts ++ [fmt_d ss])

/-- Python `_split_data`: recognize `TR`, `M`/`MT`/`MPN` and `F` cards by
their first token; anything else passes through with `dtype = 0`. -/
def _split_data (input_ : List Str) : Option (List Str × List (PyVal × Int) × Int) :=
  let inpt := joinNL input_
  match splitWS inpt with
  | [] => none
  | t0 :: _ =>
    if containsSub (toLowerS (t0.take 3)) (strL "tr") then
      let ns := _get_int t0
      match pyInt ns with
      | none => none
      | some n =>
        let inpt1 := replFirst inpt ns [tpC]
        some (splitNL (replFirst inpt1 [tpC] (fmt_d ns)), [(PyVal.i n, eTr)], dTr)
    else if headIs t0 (fun c => toLowerCh c == 'm') && ! containsSub (toLowerS t0) (strL "mode") then
      let ms := _get_int t0
      match pyInt ms with
      | none => none
      | some mn =>
        let inpt1 := replFirst inpt ms [tpC]
        let dt : Option Int :=
          match t0.drop 1 with
          | [] => none
          | c :: _ =>
            if isDigitCh c then some dM
            else if toLowerCh c = 't' then some dMt
            else if toLowerCh c = 'p' then some dMpn
            else none
        match dt with
        | none => none
        | some dtype =>
          some (splitNL (replFirst inpt1 [tpC] (fmt_d ms)), [(PyVal.i mn, eMat)], dtype)
    else if headIs t0 (fun c => toLowerCh c == 'f') then
      match t0.drop 1 with
      | [] => none
      | c1 :: _ =>
        if isDigitCh c1 then
          let ns := _get_int t0
          match pyInt ns, ns.getLast? with
          | some n, some nvC =>
            let inpt1 := replFirst inpt ns [tpC]
            let vals0 := [(PyVal.i n, eTal)]
            let fmts0 := [fmt_d ns]
            let nv : Int := (nvC.toNat : Int) - 48
            let typ : Int :=
              if nv = 1 ∨ nv = 2 then eSur
              else if nv = 4 ∨ nv = 6 ∨ nv = 7 ∨ nv = 8 then eCell
              else 0
            if typ ≠ 0 then
              let hasu := containsSub (toLowerS inpt1) (strL "u")
                ∧ containsSub (toLowerS inpt1) (strL "=")
              match dataFVals (reIntFindall inpt1) hasu typ inpt1 vals0 fmts0 with
              | none => none
              | some (inpt2, vals, fmts) =>
                some (splitNL (fmts.foldl (fun acc f => replFirst acc [tpC] f) inpt2), vals, dF)
            else
              some (splitNL (fmts0.foldl (fun acc f => replFirst acc [tpC] f) inpt1), vals0, dF)
          | _, _ => none
        else some (splitNL inpt, [], 0)
    else some (splitNL inpt, [], 0)

/-- Python `Card._get_etype`. -/
def _get_etype (c : Card) : Card :=
  let e : Option Int :=
    if c.ctype = cCell then some eCell
    else if c.ctype = cSurface then some eSur
    else if c.ctype = cData then
      if c.dtype = some dM then some eMat
      else if c.dtype = some dF then some eTal
      else if c.dtype = some dTr then some eTr
      else none
    else none
  { c with etype := e }

/-- Python `Card.get_values`: protect numbers, dispatch on the card type,
record the original name for cell and surface cards, then derive the
element type.  (`_get_params` fills the derived `params` dictionary, which
nothing here reads; it is not modelled.) -/
def get_values (c0 : Card) : Option Card :=
  let c := _protect_nums c0
  if c.ctype = cCell then
    match _split_cell c.input with
    | none => none
    | some (inp, vt) =>
      match vt with
      | (PyVal.i n, _) :: _ =>
        some (_get_etype { c with input := inp, values := vt, original_name := some n })
      | _ => none
  else if c.ctype = cSurface then
    match _split_surface c.input with
    | none => none
    | some (inp, vt) =>
      match vt with
      | (PyVal.i n, _) :: _ =>
        some (_get_etype { c with input := inp, values := vt, original_name := some n })
      | _ => none
  else if c.ctype = cData then
    match _split_data c.input with
    | none => none
    | some (inp, vt, dt) =>
      some (_get_etype { c with input := inp, values := vt, dtype := some dt })
  else some (_get_etype c)

/-! ### The card emitter (`Card.card` with `wrap=False`; the re-wrapping
branch is exercised by no claim and is not modelled) -/

/-- Restore the hidden substrings, each sentinel in first-occurrence order. -/
def applyHidden (h : List (Char × List Str)) (s : Str) : Str :=
  h.foldl (fun acc kv => kv.2.foldl (fun a v => replFirst a [kv.1] v) acc) s

/-- Python `Card.card(wrap=False)`: substitute the values into the joined
input, restore hidden parts, split per line and substitute into the
template. -/
def Card.card (c : Card) : Option Str :=
  if c.input = [] then some c.template
  else
    match pyFormat (joinNL c.input) (c.values.map Prod.fst) with
    | none => none
    | some inpt =>
      let inpt := applyHidden c.hidden inpt
      pyFormat c.template ((splitNL inpt).map PyVal.s)

/-! ### The rewrite engine of `numbering.py`

`LikeFunction` holds a renaming table `__p` and a changing table `__c`.
Ranges in map-file rule lists are either a single integer or a two-element
list; `rng[0] <= n <= rng[1]` raises `TypeError` on an integer, and the
bare `except` then compares `n == rng`.  A `plist` stores the first two
integers of the parsed list (later entries are never read). -/

inductive PyRange where
  | pint (n : Int)
  | plist (a b : Int)
deriving DecidableEq

def inRange (n : Int) : PyRange → Bool
  | .pint m => n == m
  | .plist a b => decide (a ≤ n) && decide (n ≤ b)

/-- Renaming table: per element kind a default increment and a rule list
(the line-number labels carried in the source tuples are debug-only and are
dropped here). -/
abbrev RenameTable := List (Int × (Int × List (PyRange × Int)))

/-- One change rule: the dictionary from parameter kind to new value. -/
abbrev ChangeRule := List (Int × Str)

/-- Changing table: per element kind a default rule and a rule list. -/
abbrev ChangeTable := List (Int × (ChangeRule × List (PyRange × ChangeRule)))

instance decEqChangeEntry : DecidableEq (ChangeRule × List (PyRange × ChangeRule)) :=
  instDecidableEqProd

instance decEqChangePair : DecidableEq (Int × (ChangeRule × List (PyRange × ChangeRule))) :=
  instDecidableEqProd

instance decEqChangeTable : DecidableEq ChangeTable := inferInstance



def alookup {α : Type} (l : List (Int × α)) (k : Int) : Option α :=
  (l.find? (fun kv => kv.1 == k)).map (·.2)

def aset {α : Type} (l : List (Int × α)) (k : Int) (v : α) : List (Int × α) :=
  l.map (fun kv => if kv.1 = k then (k, v) else kv)

instance decEqTables : DecidableEq (RenameTable × ChangeTable) := instDecidableEqProd

/-- Walk a rule list in declaration order; the first matching range wins. -/
def applyRangeRules (n : Int) : List (PyRange × Int) → Option Int
  | [] => none
  | (rng, inc) :: rest => if inRange n rng then some (n + inc) else applyRangeRules n rest

/-- Python `LikeFunction.rename` restricted to integer arguments: the new
number, paired with whether the void-material warning is printed.  The
optional collision log (`__lf` is off for the claims here) is not
modelled. -/
def rename (p : RenameTable) (n : Int) (t : Int) : Int × Bool :=
  let nnew :=
    match alookup p t with
    | none => n
    | some (dinc, lst) =>
      match applyRangeRules n lst with
      | some m => m
      | none => n + dinc
  (nnew, t == eMat && ((n == 0 && nnew != 0) || (n != 0 && nnew == 0)))

/-- The value-level wrapper used by `apply_renumbering`: string-valued kinds
carry negative ids which are never keys of a renaming table built by
`read_map_file` (its keys are exactly the positive element ids), so the
`t not in self.__p.keys()` branch returns them unchanged. -/
def renameVal (p : RenameTable) (v : PyVal) (t : Int) : PyVal :=
  match v with
  | .i n => .i (rename p n t).1
  | .s s => .s s

/-- Python `Card.apply_renumbering`: values of kind `Fill` are looked up
under kind `Universe` but keep their own kind. -/
def apply_renumbering (f : PyVal → Int → PyVal) (c : Card) : Card :=
  { c with values := c.values.map (fun vt => (f vt.1 (if vt.2 = eFill then eU else vt.2), vt.2)) }

/-- Python `rule.pop(t, None)`: the value for `t`, and the rule with that
key removed. -/
def popAssoc (r : ChangeRule) (t : Int) : Option Str × ChangeRule :=
  match r.find? (fun kv => kv.1 == t) with
  | none => (none, r)
  | some kv => (some kv.2, r.eraseP (fun e => e.1 == t))

/-- The value loop of `LikeFunction.change`: each value whose kind is still
a key of the (shrinking) rule is replaced by the rule string. -/
def changeVals : ChangeRule → List (PyVal × Int) → List (PyVal × Int) × ChangeRule
  | rule, [] => ([], rule)
  | rule, (v, t) :: rest =>
    match popAssoc rule t with
    | (some nv, rule') =>
      let p := changeVals rule' rest
      ((.s nv, t) :: p.1, p.2)
    | (none, rule') =>
      let p := changeVals rule' rest
      ((v, t) :: p.1, p.2)

/-- Index of the first rule whose range matches. -/
def changeFindIdx (nm : Int) : List (PyRange × ChangeRule) → Option Nat
  | [] => none
  | (rng, _) :: rest =>
    if inRange nm rng then some 0 else (changeFindIdx nm rest).map (· + 1)

/-- Python `LikeFunction.change`: walk `lst + [(dnl, original_name, drule)]`
for the first matching range and apply its rule to the card values.  The
appended default entry compares `rng == original_name` and therefore always
matches when reached.  `rule.pop` mutates the matched dictionary in place,
which the returned updated table reflects. -/
def change (ct : ChangeTable) (c : Card) : Card × ChangeTable :=
  match c.original_name, c.etype with
  | some nm, some et =>
    (match alookup ct et with
     | none => (c, ct)
     | some (drule, lst) =>
       match changeFindIdx nm lst with
       | some i =>
         match lst.get? i with
         | some (rng, rule) =>
           let p := changeVals rule c.values
           ({ c with values := p.1 }, aset ct et (drule, lst.set i (rng, p.2)))
         | none => (c, ct)
       | none =>
         let p := changeVals drule c.values
         ({ c with values := p.1 }, aset ct et (p.2, lst)))
  | _, _ => (c, ct)

/-! ### The map-file compiler -/

inductive RuleParse where
  | ren (sign : Str) (v : Int)
  | chg (d : ChangeRule)
deriving DecidableEq

inductive LineRes where
  | err
  | comment
  | rule (t : Int) (rng : Option PyRange) (r : RuleParse)
deriving DecidableEq

/-- Python `_read_range`: `some none` means no range given, the outer
`none` an uncaught exception (`int` failing on a part). -/
def _read_range (s : Str) : Option (Option PyRange) :=
  if trimWS s = [] then some none
  else if containsSub s (strL "--") then
    match (pySplitSub s (strL "--")).mapM pyInt with
    | none => none
    | some (a :: b :: _) => some (some (.plist a b))
    | some _ => none
  else (pyInt s).map (fun n => some (.pint n))

/-- Python `_read_rename_rule`: the sign key is the leading character when
it is `+` or `-`, otherwise the empty string. -/
def _read_rename_rule (s : Str) : Option RuleParse :=
  let sign : Str :=
    match s with
    | c :: _ => if c = '+' ∨ c = '-' then [c] else []
    | [] => []
  (pyInt s).map (fun v => .ren sign v)

def asetOrAdd (l : ChangeRule) (k : Int) (v : Str) : ChangeRule :=
  if (l.find? (fun kv => kv.1 == k)).isSome then
    l.map (fun kv => if kv.1 = k then (k, v) else kv)
  else l ++ [(k, v)]

/-- Python `_read_change_rule`: consume (name, value) pairs; an unknown
name, or a name with no following value, ends the parse. -/
def _read_change_rule : Nat → List Str → ChangeRule → ChangeRule
  | 0, _, res => res
  | _ + 1, [], res => res
  | fuel + 1, tk :: tl, res =>
    match eLookup? tk with
    | some pt =>
      match tl with
      | [] => res
      | v :: tl' => _read_change_rule fuel tl' (asetOrAdd res pt v)
    | none => res

/-- Python `_read_map_line`. -/
def _read_map_line (ll : Str) : LineRes :=
  let l := toLowerS (ll.dropWhile isSpaceCh)
  if ¬ containsSub l [':'] then .comment
  else
    match pySplitSub l [':'] with
    | [] => .comment
    | lp :: restParts =>
      let rp := joinCh ':' restParts
      match splitWS lp with
      | [] => .err
      | tok :: lpt =>
        let et := eLookupD tok 0
        if et = 0 then .comment
        else
          match _read_range (joinSp lpt) with
          | none => .err
          | some rng =>
            match splitWS (replAll rp '=' ' ') with
            | [] => .err
            | r0 :: rpl' =>
              match pyInt r0 with
              | some _ =>
                match _read_rename_rule r0 with
                | some rule => .rule et rng rule
                | none => .err
              | none =>
                let d := _read_change_rule ((r0 :: rpl').length + 1) (r0 :: rpl') []
                if d = [] then .comment else .rule et rng (.chg d)

/-- The initial renaming table: every positive element kind with default
increment `0` and no rules. -/
def renameInit : RenameTable := eValues.map (fun k => (k, (0, [])))

/-- The initial changing table. -/
def changeInit : ChangeTable :=
  eValues.map (fun k => (k, (([] : ChangeRule), ([] : List (PyRange × ChangeRule)))))

/-- Python `read_map_file`, one line at a time.  For a rename rule the test
`k0 in '+-'` always succeeds (the empty sign is a substring of any string);
with a range the increment is the offset for sign `+` and the anchored
difference `v - lo` otherwise.  For a change rule `k0` is an integer
parameter id and `k0 in '+-'` raises `TypeError` in Python 2, which the
`none` models; a rule for a parameter-kind prefix (negative id) raises
`KeyError` because the tables carry only positive kinds. -/
def readMapStep (acc : RenameTable × ChangeTable) (l : Str) : Option (RenameTable × ChangeTable) :=
  match _read_map_line l with
  | .err => none
  | .comment => some acc
  | .rule t rng rule =>
    match rule with
    | .ren sign v =>
      match alookup acc.1 t with
      | none => none
      | some (dinc, lst) =>
        match rng with
        | none => some (aset acc.1 t (v, lst), acc.2)
        | some r =>
          let n1 := match r with | .pint n => n | .plist a _ => a
          let inc := if sign = ['+'] then v else v - n1
          some (aset acc.1 t (dinc, lst ++ [(r, inc)]), acc.2)
    | .chg _ => none

def read_map_file (lines : List Str) : Option (RenameTable × ChangeTable) :=
  lines.foldlM readMapStep (renameInit, changeInit)

/-! ### The range summary `_get_ranges_from_set` -/

/-- A Python value in the sets passed to `_get_ranges_from_set`: either a
value of type `int` or any other numeric value (floats are rationals). -/
inductive PyNum where
  | int (n : Int)
  | other (q : ℚ)
deriving DecidableEq

def PyNum.toQ : PyNum → ℚ
  | .int n => (n : ℚ)
  | .other q => q

def PyNum.isInt : PyNum → Bool
  | .int _ => true
  | .other _ => false

/-- Extract the integer in the all-int branch (unreachable otherwise). -/
def PyNum.toZ : PyNum → Int
  | .int n => n
  | .other _ => 0

/-- Python `sorted` on distinct numeric values. -/
def sortNums (l : List PyNum) : List PyNum :=
  l.insertionSort (fun a b => a.toQ ≤ b.toQ)

instance : IsTotal PyNum (fun a b => a.toQ ≤ b.toQ) :=
  ⟨fun a b => le_total a.toQ b.toQ⟩

instance : IsTrans PyNum (fun a b => a.toQ ≤ b.toQ) :=
  ⟨fun _ _ _ => le_trans⟩

/-- The merging loop of `_get_ranges_from_set`: `n1` is the start of the
current run, `np` the previous element. -/
def mergeRuns : Int → Int → List Int → List (Int × Int)
  | n1, np, [] => [(n1, np)]
  | n1, np, n :: rest =>
    if np = n - 1 ∨ np = n then mergeRuns n1 n rest
    else (n1, np) :: mergeRuns n n rest

/-- Python `_get_ranges_from_set`: sort; with any element that is not of
type `int`, a single `(min, max)` range; otherwise merge consecutive runs. -/
def _get_ranges_from_set (nn : List PyNum) : List (ℚ × ℚ) :=
  match sortNums nn with
  | [] => []
  | e :: rest =>
    if nn.any (fun x => ¬ x.isInt) then
      [(e.toQ, ((e :: rest).getLast (List.cons_ne_nil e rest)).toQ)]
    else
      (mergeRuns e.toZ e.toZ (rest.map PyNum.toZ)).map (fun r => ((r.1 : ℚ), (r.2 : ℚ)))

/-- The integer-level core of the range summary, used to state its
properties over `Int`. -/
def intRanges (l : List Int) : List (Int × Int) :=
  match l.insertionSort (· ≤ ·) with
  | [] => []
  | n :: rest => mergeRuns n n rest

/-- A list of inclusive ranges covers an integer. -/
def inRanges (rs : List (Int × Int)) (m : Int) : Prop :=
  ∃ r ∈ rs, r.1 ≤ m ∧ m ≤ r.2

/-! ### The lexer `get_cards`

The generator is modelled as a function from the list of physical lines to
the list of yielded cards; `none` models an uncaught exception while
iterating.  A `StopIteration` from `f.next()` inside the generator body
ends the generator silently in Python 2, so running out of lines inside the
message loop yields what was produced so far.  The `_check_bad_chars` tab
warning only prints. -/

/-- Yield the pending card lines (with the current block id) and then the
pending comment lines, as `get_cards` does at a card boundary and at end of
file. -/
def flushPending (card cmnt : List Str) (ncid : Int) : Option (List Card) := do
  let l1 ← if card = [] then some [] else (mkCard card ncid).map (fun c => [c])
  let l2 ← if cmnt = [] then some [] else (mkCard cmnt cComment).map (fun c => [c])
  pure (l1 ++ l2)

/-- The main line loop of `get_cards`, with state (pending card lines,
pending comment lines, next block id, continuation flag). -/
def mainLoop : List Str → List Str → List Str → Int → Bool → Option (List Card)
  | [], card, cmnt, ncid, _ => flushPending card cmnt ncid
  | l :: rest, card, cmnt, ncid, cf =>
    if is_blankline l then do
      let flushed ← flushPending card cmnt ncid
      let bl ← mkCard [l] cBlankline
      let tl ← mainLoop rest [] [] (ncid + 1) cf
      pure (flushed ++ [bl] ++ tl)
    else if l.take 5 = strL "     " ∨ cf then
      mainLoop rest (card ++ cmnt ++ [l]) [] ncid ((l.take 81).contains '&')
    else if is_commented l then
      mainLoop rest card (cmnt ++ [l]) ncid cf
    else do
      let flushed ← flushPending card cmnt ncid
      let tl ← mainLoop rest [l] [] ncid (!is_fc_card l && (l.take 81).contains '&')
      pure (flushed ++ tl)

/-- The message-block loop: accumulate lines until the first blank line,
then yield the message card, the blank line, the title and the rest. -/
def msgLoop : List Str → List Str → Str → Option (List Card)
  | [], res, cur =>
    if is_blankline cur then do
      let mc ← mkCard res cMessage
      let bc ← mkCard [cur] cBlankline
      some [mc, bc]
    else some []
  | l :: rest, res, cur =>
    if is_blankline cur then do
      let mc ← mkCard res cMessage
      let bc ← mkCard [cur] cBlankline
      let tc ← mkCard [l] cTitle
      let tl ← mainLoop rest [] [] cCell false
      pure (mc :: bc :: tc :: tl)
    else msgLoop rest (res ++ [l]) l

/-- Python `get_cards` on the list of physical lines of the input file. -/
def get_cards (ls : List Str) : Option (List Card) :=
  match ls with
  | [] => some []
  | l :: rest =>
    match (splitWS (toLowerS l)).head? with
    | none => none
    | some kw =>
      if kw = strL "message:" then msgLoop rest [l] l
      else if kw = strL "continue" then mainLoop rest [] [] cData false
      else do
        let tc ← mkCard [l] cTitle
        let tl ← mainLoop rest [] [] cCell false
        pure (tc :: tl)

/-! ### End-to-end pipelines used by the scenario theorems -/

/-- Parse a one-line card and decompose it with `get_values`. -/
def parseValues (s : String) (ct : Int) : Option Card :=
  (mkCard [strL s] ct).bind get_values

/-- Emission with no rewrite applied. -/
def emitPlain (s : String) (ct : Int) : Option Str :=
  (parseValues s ct).bind Card.card

/-- Emission after the rename pass driven by a compiled map file. -/
def emitRenamed (s : String) (ct : Int) (mapLines : List String) : Option Str := do
  let rc ← read_map_file (mapLines.map strL)
  let c ← parseValues s ct
  (apply_renumbering (renameVal rc.1) c).card

/-- The void-material warnings printed while renaming a card's values: one
`(old, new)` pair per warning. -/
def renameWarns (p : RenameTable) (c : Card) : List (Int × Int) :=
  c.values.filterMap (fun vt =>
    match vt.1 with
    | .i n =>
      let t1 := if vt.2 = eFill then eU else vt.2
      let r := rename p n t1
      if r.2 then some (n, r.1) else none
    | .s _ => none)

/-- The change table that the map line `c 3--3: imp:n=0` describes (the
compiled shape that `read_map_file` would produce if its `k0 in '+-'` test
did not raise on integer keys). -/
def scenarioChangeTable : ChangeTable :=
  aset changeInit eCell ([], [(.plist 3 3, [(eImpN, strL "0")])])

/-- A string is brace-free when it contains neither format delimiter. -/
def braceFreeP (s : Str) : Prop := ∀ c ∈ s, c ≠ lbCh ∧ c ≠ rbCh

instance : DecidablePred braceFreeP := fun s =>
  List.decidableBAll (fun c => c ≠ lbCh ∧ c ≠ rbCh) s

/-- A small fixed renaming table used by witnesses: material offset `10`,
every other kind identity. -/
def matOffsetTable : RenameTable := aset renameInit eMat (10, [])

/-! ## Theorems for the claims C1 to C10 -/

/-- Claim C2, counterexample.  The claim states that a rename rule mapping
material 0 to non-zero has no effect and that the deck `7 0 -3` with map
`m: +10` is emitted unchanged with no warning.  On the code, the rule from
`m: +10` maps the void material 0 to 10 (with the void warning printed) and
the deck is emitted as `7 10 -3`. -/
theorem C2_void_counterexample :
    ((read_map_file [strL "m: +10"]).map (fun rc => rename rc.1 0 eMat)) = some (10, true)
    ∧ (10 : Int) ≠ 0
    ∧ emitRenamed "7 0 -3\n" cCell ["m: +10"] = some (strL "7 10 -3\n")
    ∧ strL "7 10 -3\n" ≠ strL "7 0 -3\n" := by
  refine ⟨by decide, by decide, by decide, by decide⟩

/-- Claim C2, amended.  A rename rule that maps material 0 to non-zero (or
non-zero to 0) takes effect on that value exactly like on any other value
(`LikeFunction.rename` returns `n + offset` regardless of voidness) and
prints the void-material warning; in particular deck `7 0 -3` with map
`m: +10` is emitted as `7 10 -3` with one warning for the void material. -/
theorem C2_void_amended :
    (∀ (p : RenameTable) (dinc : Int) (n : Int),
       alookup p eMat = some (dinc, []) →
       (rename p n eMat).1 = n + dinc
       ∧ ((rename p n eMat).2 = true ↔ ((n = 0 ∧ n + dinc ≠ 0) ∨ (n ≠ 0 ∧ n + dinc = 0))))
    ∧ ((read_map_file [strL "m: +10"]).bind
         (fun rc => (parseValues "7 0 -3\n" cCell).map (renameWarns rc.1))) = some [(0, 10)]
    ∧ emitRenamed "7 0 -3\n" cCell ["m: +10"] = some (strL "7 10 -3\n") := by
  refine ⟨?_, by decide, by decide⟩
  intro p dinc n h
  constructor
  · simp [rename, h, applyRangeRules]
  · simp [rename, h, applyRangeRules]

/-- Witness for C2_void_amended at a concrete table: with material offset
10, the void material 0 is renamed to 10 and the warning fires. -/
theorem C2_void_amended_w :
    (rename matOffsetTable 0 eMat).1 = 10 ∧ (rename matOffsetTable 0 eMat).2 = true := by
  have h := C2_void_amended.1 matOffsetTable 10 0 (by decide)
  exact ⟨h.1.trans (by norm_num), h.2.mpr (by decide)⟩

/-- Claim C3.  In the rename pass every value of kind `Fill` is renumbered
through the rule-table entry for kind `Universe` while keeping kind `Fill`,
and kinds of all values are preserved; the deck `1 0 -1 u=4 fill=4` with
map `u: +10` is emitted as `1 0 -1 u=14 fill=14`. -/
theorem C3_fill_universe_coupling :
    emitRenamed "1 0 -1 u=4 fill=4\n" cCell ["u: +10"] = some (strL "1 0 -1 u=14 fill=14\n")
    ∧ (∀ (f : PyVal → Int → PyVal) (c : Card),
         (apply_renumbering f c).values.map Prod.snd = c.values.map Prod.snd)
    ∧ (∀ (f : PyVal → Int → PyVal) (c : Card) (v : PyVal),
         (v, eFill) ∈ c.values → (f v eU, eFill) ∈ (apply_renumbering f c).values) := by
  refine ⟨by decide, ?_, ?_⟩
  · intro f c
    simp [apply_renumbering]
  · intro f c v hv
    have := List.mem_map_of_mem
      (fun vt : PyVal × Int => (f vt.1 (if vt.2 = eFill then eU else vt.2), vt.2)) hv
    simpa [apply_renumbering] using this

/-- Witness for C3_fill_universe_coupling on a concrete card: a `Fill`
value 4 under a function adding 10 to kind `Universe` only becomes 14 and
stays of kind `Fill`. -/
theorem C3_fill_universe_coupling_w :
    ((PyVal.i 14, eFill) ∈ (apply_renumbering
        (fun v t => match v with
                    | .i n => .i (n + (if t = eU then 10 else 0))
                    | .s s => .s s)
        { lines := [], ctype := cCell, template := [], input := [], hidden := [],
          values := [(.i 4, eFill)], original_name := none, dtype := none,
          etype := none }).values) := by
  have h := C3_fill_universe_coupling.2.2
    (fun v t => match v with
                | .i n => .i (n + (if t = eU then 10 else 0))
                | .s s => .s s)
    { lines := [], ctype := cCell, template := [], input := [], hidden := [],
      values := [(.i 4, eFill)], original_name := none, dtype := none,
      etype := none }
    (PyVal.i 4) (by simp)
  simpa using h

/-- Claim C4, counterexample.  The claim states that a signed integer on a
map line is always an offset (`n + N`), so `c 10--20: -5` should rename
cell 10 to `10 + (-5) = 5`; the code treats a `-` signed integer with a
range as an anchor and renames cell 10 to `-5`. -/
theorem C4_rename_rule_counterexample :
    ((read_map_file [strL "c 10--20: -5"]).map (fun rc => (rename rc.1 10 eCell).1)) = some (-5)
    ∧ (-5 : Int) ≠ 10 + (-5) := by
  refine ⟨by decide, by decide⟩

/-- Claim C4, amended.  On a map line, a `+` signed integer with a range
compiles to an offset (`n + N`); an unsigned integer or a `-` signed
integer with a range compiles to an anchor (`n + (N - lo)`, sending the low
end `lo` to `N`); without a range, any integer (signed or unsigned)
compiles to an offset.  The scenario `s 5--5: 200` turns surface `5 px 1.0`
into `200 px 1.0`. -/
theorem C4_rename_rule_amended :
    ((read_map_file [strL "c 10--20: +5"]).map
       (fun rc => ((rename rc.1 10 eCell).1, (rename rc.1 20 eCell).1))) = some (15, 25)
    ∧ ((read_map_file [strL "c 10--20: -5"]).map
         (fun rc => ((rename rc.1 10 eCell).1, (rename rc.1 20 eCell).1))) = some (-5, 5)
    ∧ ((read_map_file [strL "c 10--20: 100"]).map
         (fun rc => ((rename rc.1 10 eCell).1, (rename rc.1 20 eCell).1))) = some (100, 110)
    ∧ ((read_map_file [strL "s 5--5: 200"]).map (fun rc => (rename rc.1 5 eSur).1)) = some 200
    ∧ emitRenamed "5 px 1.0\n" cSurface ["s 5--5: 200"] = some (strL "200 px 1.0\n")
    ∧ ((read_map_file [strL "c: 50"]).map (fun rc => (rename rc.1 7 eCell).1)) = some 57
    ∧ ((read_map_file [strL "c: +4"]).map (fun rc => (rename rc.1 7 eCell).1)) = some 11
    ∧ ((read_map_file [strL "c: -3"]).map (fun rc => (rename rc.1 7 eCell).1)) = some 4 := by
  refine ⟨by decide, by decide, by decide, by decide, by decide, by decide, by decide, by decide⟩

/-- Keys absent from a change rule stay absent after any pop. -/
theorem popAssoc_none_preserved {r : ChangeRule} {t t' : Int}
    (h : alookup r t = none) : alookup (popAssoc r t').2 t = none := by
  unfold popAssoc
  cases hf : r.find? (fun kv => kv.1 == t') with
  | none => simpa using h
  | some kv =>
    simp only
    unfold alookup at h ⊢
    rw [Option.map_eq_none'] at h ⊢
    rw [List.find?_eq_none] at h ⊢
    intro x hx
    exact h x (List.Sublist.mem hx (List.eraseP_sublist r))

/-- The change value loop preserves the kinds of all values. -/
theorem changeVals_kinds (vals : List (PyVal × Int)) :
    ∀ rule : ChangeRule, (changeVals rule vals).1.map Prod.snd = vals.map Prod.snd := by
  induction vals with
  | nil => intro rule; simp [changeVals]
  | cons hd tl ih =>
    intro rule
    obtain ⟨v, t⟩ := hd
    unfold changeVals
    cases hp : popAssoc rule t with
    | mk o rule' =>
      cases o with
      | none => simpa using ih rule'
      | some nv => simpa using ih rule'

/-- A value whose kind is not a key of the change rule passes through the
change value loop unchanged, at its position. -/
theorem changeVals_passthrough (vals : List (PyVal × Int)) :
    ∀ (rule : ChangeRule) (i : Nat) (v : PyVal) (t : Int),
      vals.get? i = some (v, t) → alookup rule t = none →
      (changeVals rule vals).1.get? i = some (v, t) := by
  induction vals with
  | nil => intro rule i v t h _; simp at h
  | cons hd tl ih =>
    intro rule i v t h hnone
    obtain ⟨v0, t0⟩ := hd
    unfold changeVals
    cases i with
    | zero =>
      simp only [List.get?_cons_zero, Option.some.injEq, Prod.mk.injEq] at h
      obtain ⟨hv, ht⟩ := h
      subst hv; subst ht
      have hopop : popAssoc rule t0 = (none, rule) := by
        unfold popAssoc
        unfold alookup at hnone
        rw [Option.map_eq_none'] at hnone
        rw [hnone]
      rw [hopop]
      simp
    | succ j =>
      simp at h
      cases hp : popAssoc rule t0 with
      | mk o rule' =>
        have hnone' : alookup rule' t = none := by
          have := @popAssoc_none_preserved rule t t0 hnone
          rw [hp] at this
          exact this
        cases o with
        | none => simpa using ih rule' j v t (by simpa using h) hnone'
        | some nv => simpa using ih rule' j v t (by simpa using h) hnone'

/-- Claim C5, counterexample.  Compiling the scenario's own map line
`c 3--3: imp:n=0` raises (`k0 in '+-'` with an integer key is a Python 2
`TypeError`), and on a card carrying two values of the changed kind the
second one is not replaced: `rule.pop` consumes the key at its first use. -/
theorem C5_change_counterexample :
    read_map_file [strL "c 3--3: imp:n=0"] = none
    ∧ ((parseValues "3 5 -1.0 -4 imp:n=1 imp:n=1\n" cCell).map
         (fun c => (change scenarioChangeTable c).1.values.get? 5))
      = some (some (.s (strL "1"), eImpN))
    ∧ (PyVal.s (strL "1") : PyVal) ≠ .s (strL "0") := by
  refine ⟨by decide, by decide, by decide⟩

/-- Claim C5, amended.  Given the compiled change rule that `c 3--3:
imp:n=0` describes (which `read_map_file` itself cannot produce, since it
raises on change rules), the change pass of the first matching card
replaces the first value of each keyed kind and removes the key from the
rule, so a second value of the same kind on the card, and any later card
matching the same rule, pass through unchanged; values whose kind is not a
key always pass through with kinds preserved.  The scenario card
`3 5 -1.0 -4 imp:n=1 imp:p=1` is emitted as `3 5 -1.0 -4 imp:n=0
imp:p=1`. -/
theorem C5_change_amended :
    ((parseValues "3 5 -1.0 -4 imp:n=1 imp:p=1\n" cCell).bind
       (fun c => (change scenarioChangeTable c).1.card))
      = some (strL "3 5 -1.0 -4 imp:n=0 imp:p=1\n")
    ∧ ((parseValues "3 5 -1.0 -4 imp:n=1 imp:n=1\n" cCell).map
         (fun c => ((change scenarioChangeTable c).1.values.get? 4,
                    (change scenarioChangeTable c).1.values.get? 5)))
      = some (some (.s (strL "0"), eImpN), some (.s (strL "1"), eImpN))
    ∧ (∀ rule : ChangeRule, ∀ vals : List (PyVal × Int),
         (changeVals rule vals).1.map Prod.snd = vals.map Prod.snd)
    ∧ (∀ (rule : ChangeRule) (vals : List (PyVal × Int)) (i : Nat) (v : PyVal) (t : Int),
         vals.get? i = some (v, t) → alookup rule t = none →
         (changeVals rule vals).1.get? i = some (v, t)) := by
  refine ⟨by decide, by decide, ?_, ?_⟩
  · intro rule vals; exact changeVals_kinds vals rule
  · intro rule vals i v t h hn; exact changeVals_passthrough vals rule i v t h hn

/-- Witness for C5_change_amended: on concrete values, the kind list is
preserved and an unkeyed kind passes through at its position. -/
theorem C5_change_amended_w :
    (changeVals [(eImpN, strL "0")] [(.i 3, eCell), (.s (strL "1"), eImpP)]).1.get? 1
      = some (.s (strL "1"), eImpP)
    ∧ (changeVals [(eImpN, strL "0")] [(.i 3, eCell), (.s (strL "1"), eImpP)]).1.map Prod.snd
      = [eCell, eImpP] := by
  constructor
  · exact C5_change_amended.2.2.2 [(eImpN, strL "0")] [(.i 3, eCell), (.s (strL "1"), eImpP)]
      1 (.s (strL "1")) eImpP (by decide) (by decide)
  · exact (C5_change_amended.2.2.1 [(eImpN, strL "0")] [(.i 3, eCell), (.s (strL "1"), eImpP)])

/-- Claim C6, counterexample.  Applying the change pass to one card mutates
the compiled change table (the matched rule dictionary loses the popped
key), and rewriting an identical second card with the resulting table gives
different values than with the original table. -/
theorem C6_rules_immutability_counterexample :
    ((parseValues "3 5 -1.0 -4 imp:n=1 imp:p=1\n" cCell).map
       (fun c => decide ((change scenarioChangeTable c).2 = scenarioChangeTable)))
      = some false
    ∧ ((parseValues "3 5 -1.0 -4 imp:n=1 imp:p=1\n" cCell).map
         (fun c => decide ((change ((change scenarioChangeTable c).2) c).1.values
                           = (change scenarioChangeTable c).1.values)))
      = some false := by
  refine ⟨by decide, by decide⟩

/-- Claim C6, amended.  The rename pass reads the rename table only (it is
a pure function of the table in this embedding; its only writes go to the
separate warning log).  The change pass, however, pops every applied key
from the matched rule dictionary in place: after the scenario card is
changed, the compiled rule for cells is empty, and the identical second
card passes through unchanged.  When nothing matches (no original name, or
the card's kind is not a table key) the change pass leaves both the card
and the table untouched. -/
theorem C6_rules_immutability_amended :
    (∀ (ct : ChangeTable) (c : Card), c.original_name = none → change ct c = (c, ct))
    ∧ (∀ (ct : ChangeTable) (c : Card) (et : Int), c.etype = some et →
         alookup ct et = none → change ct c = (c, ct))
    ∧ ((parseValues "3 5 -1.0 -4 imp:n=1 imp:p=1\n" cCell).map
         (fun c => alookup (change scenarioChangeTable c).2 eCell))
      = some (some ([], [(.plist 3 3, [])]))
    ∧ ((parseValues "3 5 -1.0 -4 imp:n=1 imp:p=1\n" cCell).map
         (fun c => decide ((change ((change scenarioChangeTable c).2) c).1.values = c.values)))
      = some true := by
  refine ⟨?_, ?_, by decide, by decide⟩
  · intro ct c h
    unfold change
    rw [h]
  · intro ct c et het hln
    unfold change
    rw [het]
    cases hon : c.original_name with
    | none => rfl
    | some nm => simp [hln]

/-- Witness for C6_rules_immutability_amended: a card with no original name
is left unchanged together with the table. -/
theorem C6_rules_immutability_amended_w :
    change scenarioChangeTable
      { lines := [], ctype := cData, template := [], input := [], hidden := [],
        values := [(.i 1, eMat)], original_name := none, dtype := some dM,
        etype := some eMat }
      = ({ lines := [], ctype := cData, template := [], input := [], hidden := [],
           values := [(.i 1, eMat)], original_name := none, dtype := some dM,
           etype := some eMat }, scenarioChangeTable) := by
  exact C6_rules_immutability_amended.1 scenarioChangeTable _ rfl

/-- Claim C7, counterexample.  The claim says a recognized data card's
`original_name` equals its first extracted identifier; on the code,
`get_values` never assigns `original_name` for data cards: the recognized
`M` card `m1 1001.21c 0.5` extracts material 1 but keeps
`original_name = None`. -/
theorem C7_original_name_counterexample :
    ((parseValues "m1 1001.21c 0.5\n" cData).map
       (fun c => (c.original_name, c.values.get? 0, c.dtype)))
      = some (none, some (.i 1, eMat), some dM)
    ∧ (none : Option Int) ≠ some 1 := by
  refine ⟨by decide, by decide⟩

/-- Claim C7, amended.  After `get_values`, a card's `original_name` is
`some` exactly when the card is a `Cell` or `Surface` card, in which case
it equals the integer of the first extracted value; comments, blank lines,
titles, message cards, and all data cards (recognized or not) keep
`original_name = None`. -/
theorem C7_original_name_amended :
    ∀ (lines : List Str) (ct : Int) (c' : Card),
      (mkCard lines ct).bind get_values = some c' →
      ((c'.original_name.isSome = true ↔ (ct = cCell ∨ ct = cSurface))
       ∧ ∀ n, c'.original_name = some n → ∃ k, c'.values.get? 0 = some (.i n, k)) := by
  intro lines ct c' h
  rw [Option.bind_eq_some] at h
  obtain ⟨c0, hmk, hgv⟩ := h
  unfold mkCard at hmk
  split at hmk
  · rw [Option.map_eq_some'] at hmk
    obtain ⟨p, hgi, hc0⟩ := hmk
    have hct : c0.ctype = ct := by rw [← hc0]
    have hon : c0.original_name = none := by rw [← hc0]
    unfold get_values at hgv
    simp only [] at hgv
    have hpc : (_protect_nums c0).ctype = ct := by simp [_protect_nums, hct]
    have hpon : (_protect_nums c0).original_name = none := by simp [_protect_nums, hon]
    split at hgv
    · -- cell branch
      rename_i hcell
      rw [hpc] at hcell
      split at hgv
      · exact absurd hgv (by simp)
      · split at hgv
        · rename_i n k tl heq
          simp only [Option.some.injEq] at hgv
          subst hgv
          constructor
          · simp [_get_etype, hcell]
          · intro m hm
            simp only [_get_etype, Option.some.injEq] at hm
            subst hm
            exact ⟨k, by simp [_get_etype]⟩
        · exact absurd hgv (by simp)
    · split at hgv
      · -- surface branch
        rename_i hncell hsur
        rw [hpc] at hsur hncell
        split at hgv
        · exact absurd hgv (by simp)
        · split at hgv
          · rename_i n k tl heq
            simp only [Option.some.injEq] at hgv
            subst hgv
            constructor
            · simp [_get_etype, hsur]
            · intro m hm
              simp only [_get_etype, Option.some.injEq] at hm
              subst hm
              exact ⟨k, by simp [_get_etype]⟩
          · exact absurd hgv (by simp)
      · split at hgv
        · -- data branch
          rename_i hncell hnsur hdata
          rw [hpc] at hdata hnsur hncell
          split at hgv
          · exact absurd hgv (by simp)
          · simp only [Option.some.injEq] at hgv
            subst hgv
            constructor
            · simp [_get_etype, hpon, hncell, hnsur]
            · intro m hm
              simp [_get_etype, hpon] at hm
        · -- remaining card types
          rename_i hncell hnsur hndata
          rw [hpc] at hndata hnsur hncell
          simp only [Option.some.injEq] at hgv
          subst hgv
          constructor
          · simp [_get_etype, hpon, hncell, hnsur]
          · intro m hm
            simp [_get_etype, hpon] at hm
  · exact absurd hmk (by simp)

/-- Witness for C7_original_name_amended on concrete cell and data cards:
a cell card gets its id as original name, a data card gets none. -/
theorem C7_original_name_amended_w :
    ((mkCard [strL "1 0 -1\n"] cCell).bind get_values).map (fun c => c.original_name.isSome)
      = some true
    ∧ ((mkCard [strL "m1 1001.21c 0.5\n"] cData).bind get_values).map
        (fun c => c.original_name.isSome)
      = some false := by
  constructor
  · cases hc : (mkCard [strL "1 0 -1\n"] cCell).bind get_values with
    | none => exact absurd hc (by decide)
    | some c' =>
      have h := (C7_original_name_amended [strL "1 0 -1\n"] cCell c' hc).1.mpr (Or.inl rfl)
      simp [h]
  · cases hc : (mkCard [strL "m1 1001.21c 0.5\n"] cData).bind get_values with
    | none => exact absurd hc (by decide)
    | some c' =>
      have h := (C7_original_name_amended [strL "m1 1001.21c 0.5\n"] cData c' hc).1
      simp only [Option.map_some', Option.some.injEq]
      cases hs : c'.original_name.isSome with
      | false => rfl
      | true => exact absurd (h.mp hs) (by decide)

/-- Claim C8, counterexample.  The claim says iterating `get_cards` never
raises on malformed content, giving a blank first line as an example; on
the code a blank first line raises `IndexError` at
`kw = l.lower().split()[0]` before anything is yielded. -/
theorem C8_lexer_counterexample :
    get_cards [strL "\n"] = none
    ∧ get_cards [strL "\n", strL "1 0 -1\n"] = none := by
  refine ⟨by decide, by decide⟩

/-- Claim C8, amended.  On a deck whose first line is not blank and whose
blocks are delimited as expected, the lexer yields every card and, at end
of file, flushes the accumulated card lines and then the pending comment
lines as cards; extra blank-line delimiters at the end of the file do not
raise.  A blank first line, however, raises `IndexError`, and a fourth
blank-line delimiter followed by further content raises `ValueError` on
the unknown block id. -/
theorem C8_lexer_amended :
    ((get_cards (["t\n", "1 0 -1\n", "\n", "1 px 2\n", "\n",
                  "m1 0.5\n", "c done\n"].map strL)).map
       (fun cs => cs.map (fun c => (c.lines, c.ctype))))
      = some [([strL "t\n"], cTitle), ([strL "1 0 -1\n"], cCell),
              ([strL "\n"], cBlankline), ([strL "1 px 2\n"], cSurface),
              ([strL "\n"], cBlankline), ([strL "m1 0.5\n"], cData),
              ([strL "c done\n"], cComment)]
    ∧ (get_cards (["t\n", "1 0 -1\n", "\n", "1 px 2\n", "\n",
                   "m1 0.5\n", "\n", "\n"].map strL)).isSome = true
    ∧ get_cards (["t\n", "1 0 -1\n", "\n", "1 px 2\n", "\n",
                  "m1 0.5\n", "\n", "\n", "x\n"].map strL) = none := by
  refine ⟨by decide, by decide, by decide⟩

/-- Claim C10, counterexample.  The claim says Card construction raises for
any non-comment, non-blank card whose last line has no newline, no
`<space>$` and no `<space>&`; but a card matching the tally-comment
pattern `fc` takes the whole-line branch of `get_input` and constructs
fine without any line terminator. -/
theorem C10_totality_counterexample :
    findEnd (strL "fc1 x") = none
    ∧ is_commented (strL "fc1 x") = false
    ∧ (mkCard [strL "fc1 x"] cData).isSome = true := by
  refine ⟨by decide, by decide, by decide⟩

/-- Mapping over an option does not change whether it is `some`. -/
theorem isSome_map {α β : Type} (f : α → β) (o : Option α) :
    (o.map f).isSome = o.isSome := by
  cases o <;> rfl

/-- The line-by-line split succeeds exactly when every line is commented or
has an `re_end` match. -/
theorem splitLines_isSome (lines : List Str) :
    (splitLines lines).isSome = true
      ↔ ∀ l ∈ lines, is_commented l = true ∨ (findEnd l).isSome = true := by
  induction lines with
  | nil => simp [splitLines]
  | cons l rest ih =>
    unfold splitLines
    by_cases hc : is_commented l = true
    · simp [hc, ih]
    · simp only [hc, if_false, Bool.false_eq_true]
      cases hf : findEnd l with
      | none =>
        simp only [Option.isSome_none, Bool.false_eq_true, false_iff]
        intro hall
        rcases hall l (List.mem_cons_self l rest) with h1 | h2
        · exact hc h1
        · rw [hf] at h2; exact absurd h2 (by simp)
      | some d =>
        rw [isSome_map, ih]
        constructor
        · intro hall l' hl'
          rcases List.mem_cons.mp hl' with rfl | hmem
          · exact Or.inr (by simp [hf])
          · exact hall l' hmem
        · intro hall l' hl'
          exact hall l' (List.mem_cons_of_mem l hl')

/-- Claim C10, amended.  For a card of one of the meaningful card types
whose joined text does not match the tally-comment pattern `fc`,
construction succeeds exactly when every non-commented line contains a
newline, a whitespace character followed by `$`, or a whitespace character
followed by `&` (the `re_end` pattern); it raises otherwise.  Cards whose
joined text matches the `fc` pattern are exempt. -/
theorem C10_totality_amended :
    ∀ (lines : List Str) (ct : Int), validCtype ct = true →
      ¬(ct = cComment ∨ ct = cBlankline) → fcSearch lines.flatten = false →
      ((mkCard lines ct).isSome = true
        ↔ ∀ l ∈ lines, is_commented l = true ∨ (findEnd l).isSome = true) := by
  intro lines ct hv hnc hfc
  unfold mkCard get_input
  rw [hv]
  simp only [if_true, if_neg hnc, hfc, Bool.false_eq_true, if_false]
  rw [isSome_map]
  exact splitLines_isSome lines

/-- Witness for C10_totality_amended: the one-line cell card `1 0 -1`
without a line terminator fails to construct. -/
theorem C10_totality_amended_w :
    (mkCard [strL "1 0 -1"] cCell).isSome = false := by
  have h := C10_totality_amended [strL "1 0 -1"] cCell (by decide) (by decide) (by decide)
  cases hs : (mkCard [strL "1 0 -1"] cCell).isSome with
  | false => rfl
  | true =>
    have := h.mp hs (strL "1 0 -1") (List.mem_cons_self _ _)
    exact absurd this (by decide)

/-- One scanner step in normal mode. -/
theorem fmtScan_norm_cons (c : Char) (rest : Str) (vs : List PyVal) :
    fmtScan .norm (c :: rest) vs =
      if c = lbCh then fmtScan .afterLb rest vs
      else if c = rbCh then fmtScan .afterRb rest vs
      else (fmtScan .norm rest vs).map (fun p => (c :: p.1, p.2)) := rfl

/-- One scanner step after an opening brace. -/
theorem fmtScan_afterLb_cons (c : Char) (rest : Str) (vs : List PyVal) :
    fmtScan .afterLb (c :: rest) vs =
      if c = lbCh then (fmtScan .norm rest vs).map (fun p => (lbCh :: p.1, p.2))
      else if c = rbCh then
        match vs with
        | [] => none
        | v :: vs' => (fmtScan .norm rest vs').map (fun p => (valStr v ++ p.1, p.2))
      else fmtScan (.spec [c]) rest vs := rfl

/-- One scanner step after a closing brace. -/
theorem fmtScan_afterRb_cons (c : Char) (rest : Str) (vs : List PyVal) :
    fmtScan .afterRb (c :: rest) vs =
      if c = rbCh then (fmtScan .norm rest vs).map (fun p => (rbCh :: p.1, p.2))
      else none := rfl

/-- One scanner step inside a field spec. -/
theorem fmtScan_spec_cons (acc : Str) (c : Char) (rest : Str) (vs : List PyVal) :
    fmtScan (.spec acc) (c :: rest) vs =
      if c = rbCh then
        match vs with
        | [] => none
        | v :: vs' =>
          match renderSpec acc.reverse v with
          | none => none
          | some r => (fmtScan .norm rest vs').map (fun p => (r ++ p.1, p.2))
      else if c = lbCh then none
      else fmtScan (.spec (c :: acc)) rest vs := rfl

/-- A brace-free text formats to itself, consuming no arguments. -/
theorem fmtScan_braceFree :
    ∀ (s : Str), braceFreeP s → ∀ vs, fmtScan .norm s vs = some (s, vs) := by
  intro s
  induction s with
  | nil => intro _ vs; rfl
  | cons c rest ih =>
    intro hbf vs
    obtain ⟨hlb, hrb⟩ := hbf c (List.mem_cons_self c rest)
    have hbr : braceFreeP rest := fun x hx => hbf x (List.mem_cons_of_mem c hx)
    rw [fmtScan_norm_cons, if_neg hlb, if_neg hrb, ih hbr vs]
    rfl

/-- Formatting distributes over appending when the first part formats
completely. -/
theorem fmtScan_append (b : Str) :
    ∀ (a : Str) (mode : FmtMode) (vs : List PyVal) (ra : Str) (vs' : List PyVal),
      fmtScan mode a vs = some (ra, vs') →
      fmtScan mode (a ++ b) vs = (fmtScan .norm b vs').map (fun p => (ra ++ p.1, p.2)) := by
  intro a
  induction a with
  | nil =>
    intro mode vs ra vs' h
    cases mode with
    | norm =>
      simp only [fmtScan, Option.some.injEq, Prod.mk.injEq] at h
      obtain ⟨h1, h2⟩ := h
      subst h1; subst h2
      simp only [List.nil_append]
      cases hfb : fmtScan .norm b vs <;> simp
    | afterLb => simp [fmtScan] at h
    | afterRb => simp [fmtScan] at h
    | spec acc => simp [fmtScan] at h
  | cons c rest ih =>
    intro mode vs ra vs' h
    rw [List.cons_append]
    cases mode with
    | norm =>
      rw [fmtScan_norm_cons] at h ⊢
      by_cases hlb : c = lbCh
      · rw [if_pos hlb] at h ⊢
        exact ih _ _ _ _ h
      · rw [if_neg hlb] at h ⊢
        by_cases hrb : c = rbCh
        · rw [if_pos hrb] at h ⊢
          exact ih _ _ _ _ h
        · rw [if_neg hrb] at h ⊢
          rw [Option.map_eq_some'] at h
          obtain ⟨p, hp, hpe⟩ := h
          rw [Prod.mk.injEq] at hpe
          obtain ⟨hra, hvs⟩ := hpe
          subst hra; subst hvs
          rw [ih _ _ _ _ hp]
          cases fmtScan .norm b p.2 <;> simp
    | afterLb =>
      rw [fmtScan_afterLb_cons] at h ⊢
      by_cases hlb : c = lbCh
      · rw [if_pos hlb] at h ⊢
        rw [Option.map_eq_some'] at h
        obtain ⟨p, hp, hpe⟩ := h
        rw [Prod.mk.injEq] at hpe
        obtain ⟨hra, hvs⟩ := hpe
        subst hra; subst hvs
        rw [ih _ _ _ _ hp]
        cases fmtScan .norm b p.2 <;> simp
      · rw [if_neg hlb] at h ⊢
        by_cases hrb : c = rbCh
        · rw [if_pos hrb] at h ⊢
          cases vs with
          | nil => exact absurd h (by simp)
          | cons v vs0 =>
            simp only at h ⊢
            rw [Option.map_eq_some'] at h
            obtain ⟨p, hp, hpe⟩ := h
            rw [Prod.mk.injEq] at hpe
            obtain ⟨hra, hvs⟩ := hpe
            subst hra; subst hvs
            rw [ih _ _ _ _ hp]
            cases fmtScan .norm b p.2 <;> simp
        · rw [if_neg hrb] at h ⊢
          exact ih _ _ _ _ h
    | afterRb =>
      rw [fmtScan_afterRb_cons] at h ⊢
      by_cases hrb : c = rbCh
      · rw [if_pos hrb] at h ⊢
        rw [Option.map_eq_some'] at h
        obtain ⟨p, hp, hpe⟩ := h
        rw [Prod.mk.injEq] at hpe
        obtain ⟨hra, hvs⟩ := hpe
        subst hra; subst hvs
        rw [ih _ _ _ _ hp]
        cases fmtScan .norm b p.2 <;> simp
      · rw [if_neg hrb] at h
        exact absurd h (by simp)
    | spec acc =>
      rw [fmtScan_spec_cons] at h ⊢
      by_cases hrb : c = rbCh
      · rw [if_pos hrb] at h ⊢
        cases vs with
        | nil => exact absurd h (by simp)
        | cons v vs0 =>
          simp only at h ⊢
          cases hrs : renderSpec acc.reverse v with
          | none => rw [hrs] at h; exact absurd h (by simp)
          | some r =>
            rw [hrs] at h
            dsimp only at h ⊢
            rw [Option.map_eq_some'] at h
            obtain ⟨p, hp, hpe⟩ := h
            rw [Prod.mk.injEq] at hpe
            obtain ⟨hra, hvs⟩ := hpe
            subst hra; subst hvs
            rw [ih _ _ _ _ hp]
            cases fmtScan .norm b p.2 <;> simp
      · rw [if_neg hrb] at h ⊢
        by_cases hlb : c = lbCh
        · rw [if_pos hlb] at h
          exact absurd h (by simp)
        · rw [if_neg hlb] at h ⊢
          exact ih _ _ _ _ h

/-- One step of the `re_end` search. -/
theorem findEnd_cons (c : Char) (rest : Str) :
    findEnd (c :: rest) =
      if ((isSpaceCh c && (match rest with
            | d :: _ => d == '$' || d == '&'
            | [] => false)) || c == '\n') = true
      then some 0 else (findEnd rest).map (· + 1) := rfl

/-- Characters before the first `re_end` match include no newline. -/
theorem findEnd_take_no_nl :
    ∀ (l : Str) (d : Nat), findEnd l = some d → '\n' ∉ l.take d := by
  intro l
  induction l with
  | nil => intro d h; simp [findEnd] at h
  | cons c rest ih =>
    intro d h
    rw [findEnd_cons] at h
    split at h
    · simp only [Option.some.injEq] at h
      subst h
      simp
    · rename_i hhit
      cases hf : findEnd rest with
      | none => rw [hf] at h; exact absurd h (by simp)
      | some d0 =>
        rw [hf] at h
        simp only [Option.map_some', Option.some.injEq] at h
        subst h
        rw [List.take_succ_cons]
        intro hmem
        rcases List.mem_cons.mp hmem with hc | hmem0
        · apply hhit
          rw [← hc]
          simp [isSpaceCh]
        · exact ih d0 hf hmem0

/-- One step of the newline split. -/
theorem splitNL_cons (c : Char) (r : Str) :
    splitNL (c :: r) =
      if c = '\n' then [] :: splitNL r
      else
        match splitNL r with
        | [] => [[c]]
        | p :: ps => (c :: p) :: ps := rfl

/-- Splitting at newlines undoes joining with newlines when no part
contains a newline. -/
theorem splitNL_joinNL :
    ∀ (l : List Str), l ≠ [] → (∀ x ∈ l, '\n' ∉ x) → splitNL (joinNL l) = l := by
  have single : ∀ (x : Str), '\n' ∉ x → splitNL x = [x] := by
    intro x
    induction x with
    | nil => intro _; rfl
    | cons c rest ih =>
      intro hn
      rw [splitNL_cons,
          if_neg (by intro hc; exact hn (by rw [hc]; exact List.mem_cons_self _ _)),
          ih (fun hm => hn (List.mem_cons_of_mem c hm))]
  have step : ∀ (x : Str) (t : Str), '\n' ∉ x →
      splitNL (x ++ '\n' :: t) = x :: splitNL t := by
    intro x
    induction x with
    | nil => intro t _; simp [splitNL_cons]
    | cons c rest ih =>
      intro t hn
      rw [List.cons_append, splitNL_cons,
          if_neg (by intro hc; exact hn (by rw [hc]; exact List.mem_cons_self _ _)),
          ih t (fun hm => hn (List.mem_cons_of_mem c hm))]
  intro l
  induction l with
  | nil => intro h _; exact absurd rfl h
  | cons x rest ih =>
    intro _ hall
    cases rest with
    | nil => exact single x (hall x (List.mem_cons_self _ _))
    | cons y rest' =>
      have hx : '\n' ∉ x := hall x (List.mem_cons_self _ _)
      have hj : joinNL (x :: y :: rest') = x ++ '\n' :: joinNL (y :: rest') := rfl
      rw [hj, step x _ hx,
          ih (by simp) (fun z hz => hall z (List.mem_cons_of_mem x hz))]

/-- Membership in a newline join: every character is a newline or comes
from one of the parts. -/
theorem mem_joinNL :
    ∀ (l : List Str) (c : Char), c ∈ joinNL l → c = '\n' ∨ ∃ x ∈ l, c ∈ x := by
  intro l
  induction l with
  | nil => intro c hc; simp [joinNL, joinCh] at hc
  | cons x rest ih =>
    intro c hc
    cases rest with
    | nil => exact Or.inr ⟨x, List.mem_cons_self _ _, hc⟩
    | cons y rest' =>
      have : joinNL (x :: y :: rest') = x ++ '\n' :: joinNL (y :: rest') := rfl
      rw [this] at hc
      rcases List.mem_append.mp hc with hx | hrest
      · exact Or.inr ⟨x, List.mem_cons_self _ _, hx⟩
      · rcases List.mem_cons.mp hrest with hnl | hj
        · exact Or.inl hnl
        · rcases ih c hj with hnl | ⟨z, hz, hcz⟩
          · exact Or.inl hnl
          · exact Or.inr ⟨z, List.mem_cons_of_mem x hz, hcz⟩

/-- If the split produced no input segments, every line was commented and
the template is the original text. -/
theorem splitLines_all_comment :
    ∀ (lines : List Str) (t : Str), splitLines lines = some (t, []) → t = lines.flatten := by
  intro lines
  induction lines with
  | nil => intro t h; simp only [splitLines, Option.some.injEq, Prod.mk.injEq] at h; simp [← h.1]
  | cons l rest ih =>
    intro t h
    unfold splitLines at h
    split at h
    · rw [Option.map_eq_some'] at h
      obtain ⟨p, hp, hpe⟩ := h
      rw [Prod.mk.injEq] at hpe
      obtain ⟨ht, hins⟩ := hpe
      obtain ⟨t', ins'⟩ := p
      simp only at ht hins
      subst hins
      rw [← ht, List.flatten_cons, ih t' hp]
    · split at h
      · exact absurd h (by simp)
      · rw [Option.map_eq_some'] at h
        obtain ⟨p, hp, hpe⟩ := h
        rw [Prod.mk.injEq] at hpe
        exact absurd hpe.2 (by simp)

/-- Input segments produced by the split are brace-free when the lines are,
and contain no newline. -/
theorem splitLines_inputs :
    ∀ (lines : List Str) (t : Str) (ins : List Str),
      splitLines lines = some (t, ins) → (∀ l ∈ lines, braceFreeP l) →
      ∀ i ∈ ins, braceFreeP i ∧ '\n' ∉ i := by
  intro lines
  induction lines with
  | nil =>
    intro t ins h _
    simp only [splitLines, Option.some.injEq, Prod.mk.injEq] at h
    rw [← h.2]
    simp
  | cons l rest ih =>
    intro t ins h hbf
    have hbl : braceFreeP l := hbf l (List.mem_cons_self _ _)
    have hbr : ∀ l' ∈ rest, braceFreeP l' := fun l' hl' => hbf l' (List.mem_cons_of_mem l hl')
    unfold splitLines at h
    split at h
    · rw [Option.map_eq_some'] at h
      obtain ⟨p, hp, hpe⟩ := h
      rw [Prod.mk.injEq] at hpe
      obtain ⟨t', ins'⟩ := p
      simp only at hpe
      rw [← hpe.2]
      exact ih t' ins' hp hbr
    · split at h
      · exact absurd h (by simp)
      · rename_i hnc d hf
        rw [Option.map_eq_some'] at h
        obtain ⟨p, hp, hpe⟩ := h
        rw [Prod.mk.injEq] at hpe
        obtain ⟨t', ins'⟩ := p
        simp only at hpe
        rw [← hpe.2]
        intro i hi
        rcases List.mem_cons.mp hi with rfl | hmem
        · constructor
          · intro ch hch
            exact hbl ch (List.mem_of_mem_take hch)
          · exact findEnd_take_no_nl l d hf
        · exact ih t' ins' hp hbr i hmem

/-- The round trip of the line split: formatting the template with the
input segments reproduces the original text, with no arguments left over
beyond the extras. -/
theorem splitLines_roundtrip :
    ∀ (lines : List Str) (t : Str) (ins : List Str) (extra : List PyVal),
      splitLines lines = some (t, ins) → (∀ l ∈ lines, braceFreeP l) →
      fmtScan .norm t (ins.map PyVal.s ++ extra) = some (lines.flatten, extra) := by
  intro lines
  induction lines with
  | nil =>
    intro t ins extra h _
    simp only [splitLines, Option.some.injEq, Prod.mk.injEq] at h
    rw [← h.1, ← h.2]
    rfl
  | cons l rest ih =>
    intro t ins extra h hbf
    have hbl : braceFreeP l := hbf l (List.mem_cons_self _ _)
    have hbr : ∀ l' ∈ rest, braceFreeP l' := fun l' hl' => hbf l' (List.mem_cons_of_mem l hl')
    unfold splitLines at h
    split at h
    · rename_i hc
      rw [Option.map_eq_some'] at h
      obtain ⟨p, hp, hpe⟩ := h
      rw [Prod.mk.injEq] at hpe
      obtain ⟨t', ins'⟩ := p
      simp only at hpe
      rw [← hpe.1, ← hpe.2]
      have h1 : fmtScan .norm l (ins'.map PyVal.s ++ extra) = some (l, ins'.map PyVal.s ++ extra) :=
        fmtScan_braceFree l hbl _
      rw [fmtScan_append _ l .norm _ _ _ h1, ih t' ins' extra hp hbr]
      simp
    · split at h
      · exact absurd h (by simp)
      · rename_i hnc d hf
        rw [Option.map_eq_some'] at h
        obtain ⟨p, hp, hpe⟩ := h
        rw [Prod.mk.injEq] at hpe
        obtain ⟨t', ins'⟩ := p
        simp only at hpe
        rw [← hpe.1, ← hpe.2]
        -- the segment template is `{}` followed by the preserved tail
        have hdrop : braceFreeP (l.drop d) := fun ch hch => hbl ch (List.mem_of_mem_drop hch)
        have h2 : fmtScan .norm (l.drop d) (ins'.map PyVal.s ++ extra)
            = some (l.drop d, ins'.map PyVal.s ++ extra) := fmtScan_braceFree _ hdrop _
        have h3 : fmtScan .norm (l.drop d ++ t') (PyVal.s (l.take d) :: ins'.map PyVal.s ++ extra).tail
            = some (l.drop d ++ rest.flatten, extra) := by
          rw [List.cons_append, List.tail_cons]
          rw [fmtScan_append _ (l.drop d) .norm _ _ _ h2, ih t' ins' extra hp hbr]
          simp
        have hfs : fmtScan .norm ((fmt_s ++ l.drop d) ++ t')
            ((l.take d :: ins').map PyVal.s ++ extra)
            = some (l.take d ++ (l.drop d ++ rest.flatten), extra) := by
          rw [List.append_assoc, List.map_cons, List.cons_append]
          show fmtScan .norm (lbCh :: rbCh :: (l.drop d ++ t'))
            (PyVal.s (l.take d) :: (ins'.map PyVal.s ++ extra)) = _
          rw [fmtScan_norm_cons, if_pos rfl, fmtScan_afterLb_cons,
              if_neg (by decide), if_pos rfl]
          dsimp only
          rw [List.cons_append, List.tail_cons] at h3
          rw [h3]
          rfl
        rw [hfs]
        rw [List.flatten_cons, ← List.append_assoc, List.take_append_drop]

/-- Claim C1, counterexample.  Emission does not always return the original
bytes: a tally-comment (`fc`) card is emitted without its trailing newline
already right after construction, and after `get_values` a leading-zero
integer token is re-rendered left-justified (`u=04` becomes `u=4 `). -/
theorem C1_roundtrip_counterexample :
    ((mkCard [strL "fc1 hello\n"] cData).bind Card.card) = some (strL "fc1 hello")
    ∧ strL "fc1 hello" ≠ strL "fc1 hello\n"
    ∧ emitPlain "1 0 -1 u=04\n" cCell = some (strL "1 0 -1 u=4 \n")
    ∧ strL "1 0 -1 u=4 \n" ≠ strL "1 0 -1 u=04\n" := by
  refine ⟨by decide, by decide, by decide, by decide⟩

/-- Claim C1, amended.  Emission with `wrap=False` returns the original
bytes right after construction for every comment and blank-line card, and
for every other card that does not match the tally-comment (`fc`) pattern
and whose lines are brace-free; an `fc` card is truncated at the first
newline of its leading 80 bytes.  After full decomposition by
`get_values`, integer tokens are re-rendered left-justified in the width
of the original token, which reproduces the original bytes for canonically
written cards — verified on the scenario cell, surface and data cards —
but not, e.g., for leading-zero tokens. -/
theorem C1_roundtrip_amended :
    (∀ (lines : List Str) (ct : Int) (c : Card),
       (ct = cComment ∨ ct = cBlankline) → mkCard lines ct = some c →
       c.card = some lines.flatten)
    ∧ (∀ (lines : List Str) (ct : Int) (c : Card),
       validCtype ct = true → ¬(ct = cComment ∨ ct = cBlankline) →
       fcSearch lines.flatten = false → (∀ l ∈ lines, braceFreeP l) →
       mkCard lines ct = some c → c.card = some lines.flatten)
    ∧ emitPlain "1 0 -1 u=4 fill=4\n" cCell = some (strL "1 0 -1 u=4 fill=4\n")
    ∧ emitPlain "5 px 1.0\n" cSurface = some (strL "5 px 1.0\n")
    ∧ emitPlain "m1 1001.21c 0.5\n" cData = some (strL "m1 1001.21c 0.5\n")
    ∧ emitPlain "3 5 -1.0 -4 imp:n=1 imp:p=1\n" cCell
        = some (strL "3 5 -1.0 -4 imp:n=1 imp:p=1\n") := by
  refine ⟨?_, ?_, by decide, by decide, by decide, by decide⟩
  · intro lines ct c hcb hmk
    unfold mkCard at hmk
    split at hmk
    · rw [Option.map_eq_some'] at hmk
      obtain ⟨p, hgi, hc⟩ := hmk
      unfold get_input at hgi
      rw [if_pos hcb] at hgi
      simp only [Option.some.injEq] at hgi
      subst hgi
      rw [← hc]
      simp [Card.card]
    · exact absurd hmk (by simp)
  · intro lines ct c hv hnc hfc hbf hmk
    unfold mkCard at hmk
    split at hmk
    · rw [Option.map_eq_some'] at hmk
      obtain ⟨p, hgi, hc⟩ := hmk
      unfold get_input at hgi
      rw [if_neg hnc, hfc] at hgi
      simp only [Bool.false_eq_true, if_false] at hgi
      obtain ⟨t, ins⟩ := p
      rw [← hc]
      cases ins with
      | nil =>
        have ht := splitLines_all_comment lines t hgi
        simp [Card.card, ht]
      | cons i0 ins0 =>
        have hinps := splitLines_inputs lines t (i0 :: ins0) hgi hbf
        have hbj : braceFreeP (joinNL (i0 :: ins0)) := by
          intro ch hch
          rcases mem_joinNL _ ch hch with rfl | ⟨x, hx, hcx⟩
          · exact (by decide : ('\n' : Char) ≠ lbCh ∧ ('\n' : Char) ≠ rbCh)
          · exact (hinps x hx).1 ch hcx
        have hfmt1 : pyFormat (joinNL (i0 :: ins0)) ([] : List PyVal)
            = some (joinNL (i0 :: ins0)) := by
          unfold pyFormat
          rw [fmtScan_braceFree _ hbj]
          rfl
        have hsj : splitNL (joinNL (i0 :: ins0)) = i0 :: ins0 :=
          splitNL_joinNL _ (by simp) (fun x hx => (hinps x hx).2)
        have hfmt2 : pyFormat t ((i0 :: ins0).map PyVal.s) = some lines.flatten := by
          unfold pyFormat
          have := splitLines_roundtrip lines t (i0 :: ins0) [] hgi hbf
          rw [List.append_nil] at this
          rw [this]
          rfl
        unfold Card.card
        rw [if_neg (by simp)]
        simp only [List.map_nil]
        rw [hfmt1]
        show pyFormat t ((splitNL (applyHidden [] (joinNL (i0 :: ins0)))).map PyVal.s)
          = some lines.flatten
        have happ : applyHidden [] (joinNL (i0 :: ins0)) = joinNL (i0 :: ins0) := rfl
        rw [happ, hsj, hfmt2]
    · rename_i hnv
      exact absurd hv hnv

/-- Witness for the general parts of C1_roundtrip_amended: the comment
card of scenario 5 and the two-line cell card with a trailing `$` comment
both emit their original bytes after construction. -/
theorem C1_roundtrip_amended_w :
    ((mkCard [strL "c this is a cell\n"] cComment).map Card.card)
      = some (some (strL "c this is a cell\n"))
    ∧ ((mkCard [strL "1 0 -1 $trailing\n", strL "     2\n"] cCell).map Card.card)
      = some (some (strL "1 0 -1 $trailing\n     2\n")) := by
  constructor
  · cases hmk : mkCard [strL "c this is a cell\n"] cComment with
    | none => exact absurd hmk (by decide)
    | some c =>
      have h := C1_roundtrip_amended.1 [strL "c this is a cell\n"] cComment c
        (Or.inl rfl) hmk
      simp only [Option.map_some', Option.some.injEq]
      rw [h]
      decide
  · cases hmk : mkCard [strL "1 0 -1 $trailing\n", strL "     2\n"] cCell with
    | none => exact absurd hmk (by decide)
    | some c =>
      have h := C1_roundtrip_amended.2.1 [strL "1 0 -1 $trailing\n", strL "     2\n"] cCell c
        (by decide) (by decide) (by decide) (by decide) hmk
      simp only [Option.map_some', Option.some.injEq]
      rw [h]
      decide

/-- Membership in a cons of ranges. -/
theorem inRanges_cons (a b : Int) (rs : List (Int × Int)) (m : Int) :
    inRanges ((a, b) :: rs) m ↔ (a ≤ m ∧ m ≤ b) ∨ inRanges rs m := by
  unfold inRanges
  constructor
  · rintro ⟨r, hr, h1, h2⟩
    rcases List.mem_cons.mp hr with rfl | hmem
    · exact Or.inl ⟨h1, h2⟩
    · exact Or.inr ⟨r, hmem, h1, h2⟩
  · rintro (⟨h1, h2⟩ | ⟨r, hmem, h1, h2⟩)
    · exact ⟨(a, b), List.mem_cons_self _ _, h1, h2⟩
    · exact ⟨r, List.mem_cons_of_mem _ hmem, h1, h2⟩

/-- The merge loop covers exactly the current run and the remaining
elements. -/
theorem mergeRuns_cover :
    ∀ (rest : List Int) (n1 np : Int), n1 ≤ np → List.Chain' (· < ·) (np :: rest) →
      ∀ m, inRanges (mergeRuns n1 np rest) m ↔ ((n1 ≤ m ∧ m ≤ np) ∨ m ∈ rest) := by
  intro rest
  induction rest with
  | nil =>
    intro n1 np _ _ m
    unfold mergeRuns
    rw [inRanges_cons]
    simp [inRanges]
  | cons n rest ih =>
    intro n1 np hle hch m
    have hlt : np < n := List.chain'_cons.mp hch |>.1
    have hch' : List.Chain' (· < ·) (n :: rest) := List.chain'_cons.mp hch |>.2
    unfold mergeRuns
    by_cases hcond : np = n - 1 ∨ np = n
    · rw [if_pos hcond]
      rw [ih n1 n (by omega) hch' m]
      have hnp : np = n - 1 := by omega
      subst hnp
      simp only [List.mem_cons]
      constructor
      · rintro (⟨h1, h2⟩ | hm)
        · by_cases hmn : m = n
          · exact Or.inr (Or.inl hmn)
          · exact Or.inl ⟨h1, by omega⟩
        · exact Or.inr (Or.inr hm)
      · rintro (⟨h1, h2⟩ | hmn | hm)
        · exact Or.inl ⟨h1, by omega⟩
        · exact Or.inl ⟨by omega, by omega⟩
        · exact Or.inr hm
    · rw [if_neg hcond]
      rw [inRanges_cons]
      rw [ih n n le_rfl hch' m]
      simp only [List.mem_cons]
      constructor
      · rintro (⟨h1, h2⟩ | ⟨h1, h2⟩ | hm)
        · exact Or.inl ⟨h1, h2⟩
        · exact Or.inr (Or.inl (by omega))
        · exact Or.inr (Or.inr hm)
      · rintro (⟨h1, h2⟩ | hmn | hm)
        · exact Or.inl ⟨h1, h2⟩
        · exact Or.inr (Or.inl ⟨by omega, by omega⟩)
        · exact Or.inr (Or.inr hm)

/-- Structure of the merge loop output: each range is valid and starts no
earlier than the run start, and distinct ranges are separated by a gap of
at least one missing integer, pairwise. -/
theorem mergeRuns_structure :
    ∀ (rest : List Int) (n1 np : Int), n1 ≤ np → List.Chain' (· < ·) (np :: rest) →
      (∀ r ∈ mergeRuns n1 np rest, r.1 ≤ r.2 ∧ n1 ≤ r.1)
      ∧ (mergeRuns n1 np rest).Pairwise (fun r s => r.2 + 2 ≤ s.1) := by
  intro rest
  induction rest with
  | nil =>
    intro n1 np hle _
    unfold mergeRuns
    refine ⟨?_, by simp⟩
    intro r hr
    rcases List.mem_cons.mp hr with rfl | hmem
    · exact ⟨hle, le_rfl⟩
    · simp at hmem
  | cons n rest ih =>
    intro n1 np hle hch
    have hlt : np < n := List.chain'_cons.mp hch |>.1
    have hch' : List.Chain' (· < ·) (n :: rest) := List.chain'_cons.mp hch |>.2
    unfold mergeRuns
    by_cases hcond : np = n - 1 ∨ np = n
    · rw [if_pos hcond]
      obtain ⟨hv, hp⟩ := ih n1 n (by omega) hch'
      exact ⟨hv, hp⟩
    · rw [if_neg hcond]
      obtain ⟨hv, hp⟩ := ih n n le_rfl hch'
      constructor
      · intro r hr
        rcases List.mem_cons.mp hr with rfl | hmem
        · exact ⟨hle, le_rfl⟩
        · obtain ⟨h1, h2⟩ := hv r hmem
          exact ⟨h1, by omega⟩
      · rw [List.pairwise_cons]
        refine ⟨?_, hp⟩
        intro r hr
        obtain ⟨h1, h2⟩ := hv r hr
        simp only
        omega

/-- Any list of inclusive ranges covering exactly the same integers as a
valid, gap-separated list is at least as long: minimality of the range
summary. -/
theorem cover_lower_bound (rs rs' : List (Int × Int))
    (hval : ∀ r ∈ rs, r.1 ≤ r.2)
    (hgap : rs.Pairwise (fun r s => r.2 + 2 ≤ s.1))
    (hcov : ∀ m : Int, inRanges rs' m ↔ inRanges rs m) :
    rs.length ≤ rs'.length := by
  classical
  have hpg := List.pairwise_iff_get.mp hgap
  -- every range start is covered by some range of rs'
  have hex : ∀ i : Fin rs.length, ∃ j : Fin rs'.length,
      (rs'.get j).1 ≤ (rs.get i).1 ∧ (rs.get i).1 ≤ (rs'.get j).2 := by
    intro i
    have hmem : inRanges rs (rs.get i).1 :=
      ⟨rs.get i, by exact rs.get_mem _ i.2, le_rfl,
       hval (rs.get i) (by exact rs.get_mem _ i.2)⟩
    obtain ⟨r', hr', h1, h2⟩ := (hcov _).mpr hmem
    obtain ⟨j, hj⟩ := List.mem_iff_get.mp hr'
    exact ⟨j, by rw [hj]; exact h1, by rw [hj]; exact h2⟩
  let f : Fin rs.length → Fin rs'.length := fun i => (hex i).choose
  -- the gap integer after range i is covered by no range of rs
  have hgapfree : ∀ i : Fin rs.length, ¬ inRanges rs ((rs.get i).2 + 1) := by
    intro i hinr
    obtain ⟨r, hr, h1, h2⟩ := hinr
    obtain ⟨k, hk⟩ := List.mem_iff_get.mp hr
    rcases lt_trichotomy k i with hki | hki | hki
    · have hg := hpg k i hki
      rw [hk] at hg
      have hvi : (rs.get i).1 ≤ (rs.get i).2 := hval (rs.get i) (by exact rs.get_mem _ i.2)
      omega
    · subst hki
      rw [← hk] at h2
      omega
    · have hg := hpg i k hki
      rw [hk] at hg
      omega
  have hmono : ∀ i j : Fin rs.length, (i : Nat) < j → f i ≠ f j := by
    intro i j hij heq
    have hi := (hex i).choose_spec
    have hj := (hex j).choose_spec
    rw [show (hex j).choose = f j from rfl, ← heq] at hj
    rw [show (hex i).choose = f i from rfl] at hi
    -- the range f i covers both starts, hence the gap integer after i
    have hgap_ij := hpg i j hij
    have hvi : (rs.get i).1 ≤ (rs.get i).2 := hval (rs.get i) (by exact rs.get_mem _ i.2)
    have hcovg : inRanges rs' ((rs.get i).2 + 1) := by
      refine ⟨rs'.get (f i), rs'.get_mem _ _, ?_, ?_⟩
      · omega
      · omega
    exact hgapfree i ((hcov _).mp hcovg)
  have hinj : Function.Injective f := by
    intro i j heq
    by_contra hne
    rcases lt_trichotomy (i : Nat) (j : Nat) with h | h | h
    · exact hmono i j h heq
    · exact hne (Fin.ext h)
    · exact hmono j i h heq.symm
  calc rs.length = Fintype.card (Fin rs.length) := (Fintype.card_fin _).symm
    _ ≤ Fintype.card (Fin rs'.length) := Fintype.card_le_of_injective f hinj
    _ = rs'.length := Fintype.card_fin _

/-- A sorted duplicate-free integer list is strictly increasing. -/
theorem sorted_chain_lt (l : List Int) (hnd : l.Nodup) :
    List.Chain' (· < ·) (l.insertionSort (· ≤ ·)) := by
  have hs : List.Sorted (· ≤ ·) (l.insertionSort (· ≤ ·)) := List.sorted_insertionSort _ l
  have hn : (l.insertionSort (· ≤ ·)).Nodup := (List.perm_insertionSort _ l).nodup_iff.mpr hnd
  have hp : (l.insertionSort (· ≤ ·)).Pairwise (· < ·) :=
    (List.Pairwise.and hs hn).imp (fun h => lt_of_le_of_ne h.1 h.2)
  exact hp.chain'

/-- Sorting commutes with wrapping integers as Python ints. -/
theorem sortNums_map_int :
    ∀ l : List Int, sortNums (l.map PyNum.int) = (l.insertionSort (· ≤ ·)).map PyNum.int := by
  have hoi : ∀ (x : Int) (l : List Int),
      List.orderedInsert (fun a b : PyNum => a.toQ ≤ b.toQ) (.int x) (l.map .int)
        = (l.orderedInsert (· ≤ ·) x).map .int := by
    intro x l
    induction l with
    | nil => rfl
    | cons y tl ih =>
      have hc : ((PyNum.int x).toQ ≤ (PyNum.int y).toQ) ↔ (x ≤ y) := by
        simp [PyNum.toQ]
      simp only [List.map_cons, List.orderedInsert]
      by_cases hxy : x ≤ y
      · rw [if_pos (hc.mpr hxy), if_pos hxy, List.map_cons, List.map_cons]
      · rw [if_neg (fun h => hxy (hc.mp h)), if_neg hxy, List.map_cons, ih]
  intro l
  induction l with
  | nil => rfl
  | cons x tl ih =>
    unfold sortNums at ih ⊢
    simp only [List.map_cons, List.insertionSort]
    rw [ih, hoi]

/-- On a list of Python ints the range summary is the integer-level
summary, with endpoints embedded into the rationals. -/
theorem getRanges_int (l : List Int) :
    _get_ranges_from_set (l.map PyNum.int)
      = (intRanges l).map (fun r => ((r.1 : ℚ), (r.2 : ℚ))) := by
  have hany : (l.map PyNum.int).any (fun x => ¬ x.isInt) = false := by
    simp [PyNum.isInt]
  cases hs : l.insertionSort (· ≤ ·) with
  | nil =>
    have hsn : sortNums (l.map PyNum.int) = [] := by rw [sortNums_map_int, hs]; rfl
    have h1 : _get_ranges_from_set (l.map PyNum.int) = [] := by
      unfold _get_ranges_from_set
      rw [hsn]
    have h2 : intRanges l = [] := by unfold intRanges; rw [hs]
    rw [h1, h2]
    rfl
  | cons n rest =>
    have hsn : sortNums (l.map PyNum.int) = PyNum.int n :: rest.map PyNum.int := by
      rw [sortNums_map_int, hs]; rfl
    have h2 : intRanges l = mergeRuns n n rest := by unfold intRanges; rw [hs]
    have htoz : (rest.map PyNum.int).map PyNum.toZ = rest := by
      rw [List.map_map]
      have : PyNum.toZ ∘ PyNum.int = id := by funext z; rfl
      rw [this, List.map_id]
    unfold _get_ranges_from_set
    rw [hsn]
    simp only [hany, Bool.false_eq_true, if_false]
    rw [htoz, h2]
    rfl

/-- In a list sorted by value, every element is at most the last. -/
theorem pairwise_le_getLast :
    ∀ (s : List PyNum), s.Pairwise (fun a b => a.toQ ≤ b.toQ) →
      ∀ (h : s ≠ []) (y : PyNum), y ∈ s → y.toQ ≤ (s.getLast h).toQ := by
  intro s
  induction s with
  | nil => intro _ h; exact absurd rfl h
  | cons x tl ih =>
    intro hp hne y hy
    cases tl with
    | nil =>
      rcases List.mem_cons.mp hy with rfl | hm
      · simp [List.getLast]
      · simp at hm
    | cons z tl' =>
      rw [List.getLast_cons (by simp)]
      have hp' : (z :: tl').Pairwise (fun a b => a.toQ ≤ b.toQ) :=
        (List.pairwise_cons.mp hp).2
      rcases List.mem_cons.mp hy with rfl | hm
      · have hlast_mem : (z :: tl').getLast (by simp) ∈ z :: tl' := List.getLast_mem _
        exact (List.pairwise_cons.mp hp).1 _ hlast_mem
      · exact ih hp' (by simp) y hm

/-- With a non-`int` element present, the summary is the single
`(min, max)` range. -/
theorem getRanges_nonint :
    ∀ (nn : List PyNum), nn ≠ [] → (∃ e ∈ nn, e.isInt = false) →
      ∃ a b, _get_ranges_from_set nn = [(a, b)]
        ∧ (∀ e ∈ nn, a ≤ e.toQ ∧ e.toQ ≤ b)
        ∧ (∃ e ∈ nn, e.toQ = a) ∧ (∃ e ∈ nn, e.toQ = b) := by
  intro nn hne hex
  have hperm : List.Perm (sortNums nn) nn := List.perm_insertionSort _ nn
  have hsorted : (sortNums nn).Pairwise (fun a b => a.toQ ≤ b.toQ) :=
    List.sorted_insertionSort _ nn
  have hany : nn.any (fun x => ¬ x.isInt) = true := by
    obtain ⟨e, he, hie⟩ := hex
    rw [List.any_eq_true]
    exact ⟨e, he, by simp [hie]⟩
  unfold _get_ranges_from_set
  cases hs : sortNums nn with
  | nil =>
    rw [hs] at hperm
    exact absurd hperm.symm.eq_nil hne
  | cons e rest =>
    rw [hs] at hperm hsorted
    simp only [hany, if_true]
    refine ⟨e.toQ, ((e :: rest).getLast (List.cons_ne_nil e rest)).toQ, rfl, ?_, ?_, ?_⟩
    · intro y hy
      have hys : y ∈ e :: rest := hperm.symm.mem_iff.mp hy
      constructor
      · rcases List.mem_cons.mp hys with rfl | hm
        · exact le_rfl
        · exact (List.pairwise_cons.mp hsorted).1 y hm
      · exact pairwise_le_getLast _ hsorted (List.cons_ne_nil e rest) y hys
    · exact ⟨e, hperm.mem_iff.mp (List.mem_cons_self e rest), rfl⟩
    · exact ⟨(e :: rest).getLast (List.cons_ne_nil e rest),
        hperm.mem_iff.mp (List.getLast_mem _), rfl⟩

/-- Claim C9.  For every finite set of distinct Python ints, the range
summary `_get_ranges_from_set` (refined here by `intRanges` over `Int`)
yields valid inclusive ranges in ascending order separated by gaps, that
cover exactly the elements of the set, and no shorter list of inclusive
ranges covers the same set; a singleton set yields `(n, n)`; a set with an
element that is not of type `int` yields the single range `(min, max)`. -/
theorem C9_range_summary :
    (∀ (l : List Int), l.Nodup →
       ((∀ m : Int, inRanges (intRanges l) m ↔ m ∈ l)
        ∧ (∀ r ∈ intRanges l, r.1 ≤ r.2)
        ∧ List.Chain' (fun r s : Int × Int => r.2 + 2 ≤ s.1) (intRanges l)
        ∧ (∀ rs' : List (Int × Int), (∀ m : Int, inRanges rs' m ↔ m ∈ l) →
             (intRanges l).length ≤ rs'.length)
        ∧ _get_ranges_from_set (l.map PyNum.int)
            = (intRanges l).map (fun r => ((r.1 : ℚ), (r.2 : ℚ)))))
    ∧ (∀ n : Int, intRanges [n] = [(n, n)])
    ∧ (∀ (nn : List PyNum), nn ≠ [] → (∃ e ∈ nn, e.isInt = false) →
         ∃ a b, _get_ranges_from_set nn = [(a, b)]
           ∧ (∀ e ∈ nn, a ≤ e.toQ ∧ e.toQ ≤ b)
           ∧ (∃ e ∈ nn, e.toQ = a) ∧ (∃ e ∈ nn, e.toQ = b)) := by
  refine ⟨?_, ?_, getRanges_nonint⟩
  · intro l hnd
    have hchain := sorted_chain_lt l hnd
    have hperm : List.Perm (l.insertionSort (· ≤ ·)) l := List.perm_insertionSort _ l
    cases hs : l.insertionSort (· ≤ ·) with
    | nil =>
      rw [hs] at hperm
      have hl : l = [] := hperm.symm.eq_nil
      subst hl
      have hir : intRanges ([] : List Int) = [] := rfl
      refine ⟨?_, ?_, ?_, ?_, getRanges_int []⟩
      · intro m; rw [hir]; simp [inRanges]
      · rw [hir]; simp
      · rw [hir]; simp
      · intro rs' _; rw [hir]; simp
    | cons n rest =>
      rw [hs] at hchain hperm
      have hir : intRanges l = mergeRuns n n rest := by unfold intRanges; rw [hs]
      obtain ⟨hv, hp⟩ := mergeRuns_structure rest n n le_rfl hchain
      have hcov : ∀ m : Int, inRanges (intRanges l) m ↔ m ∈ l := by
        intro m
        rw [hir, mergeRuns_cover rest n n le_rfl hchain m, ← hperm.mem_iff]
        simp only [List.mem_cons]
        constructor
        · rintro (⟨h1, h2⟩ | hm)
          · exact Or.inl (by omega)
          · exact Or.inr hm
        · rintro (rfl | hm)
          · exact Or.inl ⟨le_rfl, le_rfl⟩
          · exact Or.inr hm
      refine ⟨hcov, ?_, ?_, ?_, getRanges_int l⟩
      · rw [hir]; intro r hr; exact (hv r hr).1
      · rw [hir]; exact hp.chain'
      · intro rs' hcov'
        rw [hir]
        refine cover_lower_bound (mergeRuns n n rest) rs'
          (fun r hr => (hv r hr).1) hp ?_
        intro m
        rw [hcov' m, ← hcov m, hir]
  · intro n
    rfl

/-- Witness for C9_range_summary at the docstring example set
`{1, 3, 4, 5, 7}` and at a set with a float. -/
theorem C9_range_summary_w :
    inRanges (intRanges [1, 3, 4, 5, 7]) 4
    ∧ ¬ inRanges (intRanges [1, 3, 4, 5, 7]) 2
    ∧ intRanges [1, 3, 4, 5, 7] = [(1, 1), (3, 5), (7, 7)]
    ∧ (∃ a b, _get_ranges_from_set [PyNum.int 1, PyNum.other (5 / 2 : ℚ)] = [(a, b)]) := by
  have h := C9_range_summary.1 [1, 3, 4, 5, 7] (by decide)
  refine ⟨(h.1 4).mpr (by decide), ?_, by decide, ?_⟩
  · intro hc
    exact absurd ((h.1 2).mp hc) (by decide)
  · obtain ⟨a, b, hab, _⟩ := C9_range_summary.2.2 [PyNum.int 1, PyNum.other (5 / 2 : ℚ)]
      (by simp) ⟨PyNum.other (5 / 2 : ℚ), by simp, rfl⟩
    exact ⟨a, b, hab⟩
